import Mathlib

/-!
Verification of the this2that inference/verification engine.

The definitions below are a shallow embedding of the engine implemented in
`src/this2that2.py` (the canonical variant per the design notes): the value
model of decoded YAML/JSON documents, Python structural equality (`==`),
breadth-first sub-node path search, the JMESPath expression builders, the
projection / equality-filter detection heuristics, the suggestion pipeline,
and the session-state transitions of `This2That.infer_filter_from_edit` and
`This2That.verify_pending`.

Python values decoded from YAML/JSON are modelled by `Value`:
numbers carry an `isFloat` tag (Python `int` vs `float`) and their exact
rational value (doubles are dyadic rationals, so this is lossless); mappings
are ordered association lists with `String` keys (insertion order).
-/

/-- The value model: a decoded YAML/JSON document as held by the Python code
(`None` / `bool` / `int` / `float` / `str` / `list` / `dict`). -/
inductive Value where
  | null : Value
  | bool : Bool → Value
  | num : Bool → ℚ → Value
  | str : String → Value
  | seq : List Value → Value
  | map : List (String × Value) → Value
deriving Repr

/-- First-match key lookup in an association list: Python `dict` indexing
(Python dicts cannot hold duplicate keys, so first-match is exact). -/
def lookupKey (k : String) : List (String × Value) → Option Value
  | [] => none
  | (k2, v) :: rest => if k = k2 then some v else lookupKey k rest

/-- The rational value a Python `bool` takes in numeric comparisons
(`True == 1`, `False == 0`). -/
def boolRat (b : Bool) : ℚ := if b then 1 else 0

mutual
/-- Python `==` on decoded values, the comparison used by `deep_equal` in the
source: numbers compare by mathematical value across `int`/`float`, `bool`
compares as `0`/`1` against numbers, lists compare pointwise in order, dicts
compare by same length plus per-key comparison of values. -/
def pythonEq : Value → Value → Bool
  | .null, .null => true
  | .bool a, .bool b => a == b
  | .bool a, .num _ q => boolRat a == q
  | .num _ q, .bool b => q == boolRat b
  | .num _ p, .num _ q => p == q
  | .str a, .str b => a == b
  | .seq xs, .seq ys => pythonEqList xs ys
  | .map m, .map n => m.length == n.length && pythonEqEntries m n
  | _, _ => false

/-- Pointwise Python `==` on lists. -/
def pythonEqList : List Value → List Value → Bool
  | [], [] => true
  | x :: xs, y :: ys => pythonEq x y && pythonEqList xs ys
  | _, _ => false

/-- Per-key comparison step of Python dict `==`: every key of the first dict
must be present in the second with `==`-equal value. -/
def pythonEqEntries : List (String × Value) → List (String × Value) → Bool
  | [], _ => true
  | (k, v) :: rest, n =>
    (match lookupKey k n with
     | some w => pythonEq v w
     | none => false) && pythonEqEntries rest n
end

/-- `deep_equal` from the source: plain Python `==`. -/
def deep_equal (a b : Value) : Bool := pythonEq a b

example : deep_equal (.num false 1) (.num true 1) = true := by
  simp [deep_equal, pythonEq]

example : deep_equal (.bool true) (.num false 1) = true := by
  simp [deep_equal, pythonEq, boolRat]

example : deep_equal (.seq [.num false 1]) (.seq [.num false 2]) = false := by
  simp [deep_equal, pythonEq, pythonEqList]

/-- A path segment: a mapping key or a sequence index, as stored in the path
lists built by `find_subnode_path`. -/
inductive Seg where
  | key : String → Seg
  | idx : ℕ → Seg
deriving Repr, DecidableEq

/-- The child entries of a value in visiting order: mapping entries in
insertion order, sequence elements in index order; scalars have none.
This is the iteration order of the BFS loop in `find_subnode_path`. -/
def childEntries : Value → List (Seg × Value)
  | .map m => m.map (fun kv => (Seg.key kv.1, kv.2))
  | .seq xs => xs.enum.map (fun p => (Seg.idx p.1, p.2))
  | _ => []

/-- One traversal step: indexing a value by a segment (`node[k]` / `node[i]`). -/
def childLookup : Value → Seg → Option Value
  | .map m, .key k => lookupKey k m
  | .seq xs, .idx i => xs.get? i
  | _, _ => none

/-- Traversing a path from a root value (repeated indexing). -/
def lookupPath : Value → List Seg → Option Value
  | v, [] => some v
  | v, s :: rest =>
    match childLookup v s with
    | some c => lookupPath c rest
    | none => none

mutual
/-- Size of a value (number of nodes); the termination measure for the
breadth-first search and the depth bound for its level decomposition. -/
def vsize : Value → ℕ
  | .null => 1
  | .bool _ => 1
  | .num _ _ => 1
  | .str _ => 1
  | .seq xs => 1 + vsizeL xs
  | .map m => 1 + vsizeM m

/-- Total size of a list of values. -/
def vsizeL : List Value → ℕ
  | [] => 0
  | x :: xs => vsize x + vsizeL xs

/-- Total size of the values of an association list. -/
def vsizeM : List (String × Value) → ℕ
  | [] => 0
  | kv :: rest => vsize kv.2 + vsizeM rest
end

theorem vsize_pos (v : Value) : 0 < vsize v := by
  cases v <;> simp [vsize]

/-- Sum of the sizes of the values in a BFS queue; the termination measure of
the breadth-first loop. -/
def queueSize (q : List (List Seg × Value)) : ℕ :=
  (q.map (fun pv => vsize pv.2)).sum

theorem sizeSum_childEntries_lt (v : Value) :
    ((childEntries v).map (fun sv => vsize sv.2)).sum < vsize v := by
  cases v with
  | seq xs =>
    have h : ∀ (n : ℕ), ((List.enumFrom n xs).map
        ((fun sv => vsize sv.2) ∘ fun p => (Seg.idx p.1, p.2))).sum = vsizeL xs := by
      intro n
      induction xs generalizing n with
      | nil => simp [vsizeL]
      | cons x xs ih => simp [List.enumFrom, vsizeL, ih]
    have hv : vsize (Value.seq xs) = 1 + vsizeL xs := rfl
    simp only [childEntries, List.enum, List.map_map, h 0, hv]
    omega
  | map m =>
    have h : (m.map ((fun sv => vsize sv.2) ∘ fun kv => (Seg.key kv.1, kv.2))).sum
        = vsizeM m := by
      induction m with
      | nil => simp [vsizeM]
      | cons kv rest ih => simp [vsizeM, ih]
    have hv : vsize (Value.map m) = 1 + vsizeM m := rfl
    simp only [childEntries, List.map_map, h, hv]
    omega
  | null => simp [childEntries, vsize]
  | bool b => simp [childEntries, vsize]
  | num f q => simp [childEntries, vsize]
  | str s => simp [childEntries, vsize]

theorem queueSize_append (q1 q2 : List (List Seg × Value)) :
    queueSize (q1 ++ q2) = queueSize q1 + queueSize q2 := by
  simp [queueSize]

theorem queueSize_children (path : List Seg) (node : Value) :
    queueSize ((childEntries node).map (fun sv => (path ++ [sv.1], sv.2)))
      = ((childEntries node).map (fun sv => vsize sv.2)).sum := by
  simp [queueSize, List.map_map]
  rfl

/-- The breadth-first loop of `find_subnode_path`: pop a `(path, node)` pair,
test each child against the target in visiting order returning `path ++ [seg]`
on the first `==` match, otherwise enqueue all children and continue.
(The identity-based `seen` set of the Python loop never fires on tree-shaped
decoded documents — every object is enqueued at most once — so it is not
modelled.) -/
def bfs (t : Value) : List (List Seg × Value) → Option (List Seg)
  | [] => none
  | (path, node) :: rest =>
    let ch := (childEntries node).map (fun sv => (path ++ [sv.1], sv.2))
    match ch.find? (fun pv => pythonEq pv.2 t) with
    | some pv => some pv.1
    | none => bfs t (rest ++ ch)
termination_by q => queueSize q
decreasing_by
  rw [queueSize_append, queueSize_children]
  have h1 := sizeSum_childEntries_lt node
  have h2 : queueSize ((path, node) :: rest) = vsize node + queueSize rest := by
    simp [queueSize]
  omega

/-- `find_subnode_path` from the source: return `[]` if the root itself is
`==`-equal to the target, otherwise run the breadth-first search for the
first equal descendant; `none` models the Python `None` result. -/
def find_subnode_path (root target : Value) : Option (List Seg) :=
  if pythonEq root target then some [] else bfs target [([], root)]

/-- No duplicate keys in a key list (Python dicts cannot hold duplicates). -/
def nodupKeys : List String → Bool
  | [] => true
  | k :: rest => !rest.contains k && nodupKeys rest

mutual
/-- Invariant of decoded documents: every mapping in the tree has pairwise
distinct keys (Python dicts cannot hold duplicate keys). -/
def nodupV : Value → Bool
  | .seq xs => nodupVL xs
  | .map m => nodupKeys (m.map Prod.fst) && nodupVM m
  | _ => true

/-- `nodupV` over a list of values. -/
def nodupVL : List Value → Bool
  | [] => true
  | x :: xs => nodupV x && nodupVL xs

/-- `nodupV` over the values of an association list. -/
def nodupVM : List (String × Value) → Bool
  | [] => true
  | kv :: rest => nodupV kv.2 && nodupVM rest
end

/-- The breadth-first visiting order: the list of `(path, child)` pairs tested
by the BFS loop starting from queue `q`, in the order tested. -/
def bfsEnum : List (List Seg × Value) → List (List Seg × Value)
  | [] => []
  | (path, node) :: rest =>
    let ch := (childEntries node).map (fun sv => (path ++ [sv.1], sv.2))
    ch ++ bfsEnum (rest ++ ch)
termination_by q => queueSize q
decreasing_by
  rw [queueSize_append, queueSize_children]
  have h1 := sizeSum_childEntries_lt node
  have h2 : queueSize ((path, node) :: rest) = vsize node + queueSize rest := by
    simp [queueSize]
  omega

/-- All children of the entries of a queue, in queue order and, within one
entry, in visiting order; one breadth-first level begets the next. -/
def flatChildren (q : List (List Seg × Value)) : List (List Seg × Value) :=
  (q.map (fun pv => (childEntries pv.2).map (fun sv => (pv.1 ++ [sv.1], sv.2)))).flatten

/-- The `k`-th level of the breadth-first traversal of `root`. -/
def level (root : Value) : ℕ → List (List Seg × Value)
  | 0 => [([], root)]
  | k + 1 => flatChildren (level root k)

theorem bfs_eq_find (t : Value) (q : List (List Seg × Value)) :
    bfs t q = ((bfsEnum q).find? (fun pv => pythonEq pv.2 t)).map Prod.fst := by
  generalize hN : queueSize q = N
  induction N using Nat.strong_induction_on generalizing q with
  | _ N ih =>
    match q with
    | [] => simp [bfs, bfsEnum]
    | (path, node) :: rest =>
      rw [bfs, bfsEnum]
      simp only [List.find?_append]
      cases hf : ((childEntries node).map
          (fun sv => (path ++ [sv.1], sv.2))).find? (fun pv => pythonEq pv.2 t) with
      | some pv => simp [hf]
      | none =>
        simp only [hf, Option.none_or]
        have hlt : queueSize (rest ++ (childEntries node).map
            (fun sv => (path ++ [sv.1], sv.2))) < N := by
          rw [queueSize_append, queueSize_children]
          have h1 := sizeSum_childEntries_lt node
          have h2 : queueSize ((path, node) :: rest) = vsize node + queueSize rest := by
            simp [queueSize]
          omega
        exact ih _ hlt _ rfl

theorem bfsEnum_append (q1 q2 : List (List Seg × Value)) :
    bfsEnum (q1 ++ q2) = flatChildren q1 ++ bfsEnum (q2 ++ flatChildren q1) := by
  induction q1 generalizing q2 with
  | nil => simp [flatChildren]
  | cons e q1 ih =>
    obtain ⟨path, node⟩ := e
    rw [List.cons_append, bfsEnum]
    have hch : flatChildren ((path, node) :: q1)
        = (childEntries node).map (fun sv => (path ++ [sv.1], sv.2)) ++ flatChildren q1 := by
      simp [flatChildren]
    rw [List.append_assoc, ih]
    rw [hch]
    simp [List.append_assoc]

theorem bfsEnum_step (q : List (List Seg × Value)) :
    bfsEnum q = flatChildren q ++ bfsEnum (flatChildren q) := by
  have := bfsEnum_append q []
  simpa using this

theorem mem_flatChildren {e : List Seg × Value} {q : List (List Seg × Value)} :
    e ∈ flatChildren q ↔ ∃ pv ∈ q, ∃ sv ∈ childEntries pv.2,
      e = (pv.1 ++ [sv.1], sv.2) := by
  simp only [flatChildren, List.mem_flatten, List.mem_map]
  constructor
  · rintro ⟨l, ⟨pv, hpv, rfl⟩, hel⟩
    rcases List.mem_map.mp hel with ⟨sv, hsv, rfl⟩
    exact ⟨pv, hpv, sv, hsv, rfl⟩
  · rintro ⟨pv, hpv, sv, hsv, rfl⟩
    exact ⟨_, ⟨pv, hpv, rfl⟩, List.mem_map.mpr ⟨sv, hsv, rfl⟩⟩

theorem level_length {root : Value} :
    ∀ {k : ℕ} {e : List Seg × Value}, e ∈ level root k → e.1.length = k := by
  intro k
  induction k with
  | zero => intro e he; simp [level] at he; simp [he]
  | succ k ih =>
    intro e he
    rw [level] at he
    rcases mem_flatChildren.mp he with ⟨pv, hpv, sv, _, rfl⟩
    simp [ih hpv]

theorem mem_childEntries_vsize {s : Seg} {c v : Value} (h : (s, c) ∈ childEntries v) :
    vsize c < vsize v := by
  have hmem : vsize c ∈ (childEntries v).map (fun sv => vsize sv.2) :=
    List.mem_map.mpr ⟨(s, c), h, rfl⟩
  have hle : vsize c ≤ ((childEntries v).map (fun sv => vsize sv.2)).sum :=
    List.single_le_sum (fun x _ => Nat.zero_le x) _ hmem
  exact lt_of_le_of_lt hle (sizeSum_childEntries_lt v)

theorem level_vsize {root : Value} :
    ∀ {k : ℕ} {e : List Seg × Value}, e ∈ level root k → vsize e.2 + k ≤ vsize root := by
  intro k
  induction k with
  | zero => intro e he; simp [level] at he; simp [he]
  | succ k ih =>
    intro e he
    rw [level] at he
    rcases mem_flatChildren.mp he with ⟨pv, hpv, sv, hsv, rfl⟩
    have h1 := ih hpv
    have h2 : vsize sv.2 < vsize pv.2 := mem_childEntries_vsize (by simpa using hsv)
    have h3 : vsize (pv.1 ++ [sv.1], sv.2).2 = vsize sv.2 := rfl
    omega

theorem level_vsize_empty (root : Value) : level root (vsize root) = [] := by
  rw [List.eq_nil_iff_forall_not_mem]
  intro e he
  have h1 := level_vsize he
  have h2 := vsize_pos e.2
  omega

theorem bfsEnum_levels (root : Value) (k : ℕ) :
    bfsEnum [([], root)]
      = ((List.range k).map (fun i => level root (i + 1))).flatten
        ++ bfsEnum (level root k) := by
  induction k with
  | zero => simp [level]
  | succ k ih =>
    rw [ih, bfsEnum_step (level root k)]
    rw [List.range_succ, List.map_append, List.flatten_append]
    simp [level, List.append_assoc]

/-- The full breadth-first visit order of `find_subnode_path`: the root first,
then every level of descendants, each level in visiting order. -/
def bfsOrder (root : Value) : List (List Seg × Value) :=
  ([], root) :: ((List.range (vsize root)).map (fun i => level root (i + 1))).flatten

theorem bfsEnum_init (root : Value) :
    bfsEnum [([], root)]
      = ((List.range (vsize root)).map (fun i => level root (i + 1))).flatten := by
  rw [bfsEnum_levels root (vsize root), level_vsize_empty, bfsEnum]
  simp

theorem find_subnode_path_eq_find (root t : Value) :
    find_subnode_path root t
      = ((bfsOrder root).find? (fun pv => pythonEq pv.2 t)).map Prod.fst := by
  rw [find_subnode_path, bfsOrder]
  by_cases h : pythonEq root t = true
  · rw [if_pos h, List.find?_cons_of_pos _ (by simpa using h)]
    rfl
  · rw [if_neg h, List.find?_cons_of_neg _ (by simpa using h)]
    rw [bfs_eq_find, bfsEnum_init]

theorem lookupPath_append (v : Value) (p q : List Seg) :
    lookupPath v (p ++ q) = (lookupPath v p).bind (fun u => lookupPath u q) := by
  induction p generalizing v with
  | nil => simp [lookupPath]
  | cons s rest ih =>
    rw [List.cons_append, lookupPath, lookupPath]
    cases childLookup v s with
    | none => simp
    | some c => simp [ih c]

theorem lookupPath_singleton (v : Value) (s : Seg) :
    lookupPath v [s] = childLookup v s := by
  rw [lookupPath]
  cases childLookup v s <;> simp [lookupPath]

theorem mem_enumFrom_of_get? {xs : List Value} :
    ∀ {i n : ℕ} {c : Value}, xs.get? i = some c → (n + i, c) ∈ List.enumFrom n xs := by
  induction xs with
  | nil => intro i n c h; simp [List.get?] at h
  | cons x xs ih =>
    intro i n c h
    cases i with
    | zero =>
      simp [List.get?] at h
      simp [List.enumFrom, h]
    | succ i =>
      simp only [List.get?] at h
      have := ih (n := n + 1) h
      rw [List.enumFrom]
      right
      simpa [Nat.add_assoc, Nat.add_comm 1 i] using this

theorem get?_of_mem_enumFrom {xs : List Value} :
    ∀ {j n : ℕ} {c : Value}, (j, c) ∈ List.enumFrom n xs →
      n ≤ j ∧ xs.get? (j - n) = some c := by
  induction xs with
  | nil => intro j n c h; simp [List.enumFrom] at h
  | cons x xs ih =>
    intro j n c h
    rw [List.enumFrom] at h
    rcases List.mem_cons.mp h with h | h
    · have h1 : j = n ∧ c = x := by simpa using h
      obtain ⟨rfl, rfl⟩ := h1
      simp [List.get?]
    · obtain ⟨h1, h2⟩ := ih h
      constructor
      · omega
      · have hj : j - n = (j - (n + 1)) + 1 := by omega
        rw [hj]
        simpa [List.get?] using h2

theorem childLookup_mem {v c : Value} {s : Seg} (h : childLookup v s = some c) :
    (s, c) ∈ childEntries v := by
  cases v with
  | map m =>
    cases s with
    | key k =>
      simp only [childLookup] at h
      simp only [childEntries, List.mem_map]
      induction m with
      | nil => simp [lookupKey] at h
      | cons kv rest ih =>
        obtain ⟨k2, v2⟩ := kv
        rw [lookupKey] at h
        by_cases hk : k = k2
        · rw [if_pos hk] at h
          have hc : v2 = c := by simpa using h
          exact ⟨(k2, v2), List.mem_cons_self .., by simp [hk, hc]⟩
        · rw [if_neg hk] at h
          rcases ih h with ⟨kv2, hm, he⟩
          exact ⟨kv2, List.mem_cons_of_mem _ hm, he⟩
    | idx i => simp [childLookup] at h
  | seq xs =>
    cases s with
    | key k => simp [childLookup] at h
    | idx i =>
      simp only [childLookup] at h
      simp only [childEntries, List.enum, List.mem_map]
      exact ⟨(i, c), by simpa using mem_enumFrom_of_get? (n := 0) h, rfl⟩
  | null => simp [childLookup] at h
  | bool b => simp [childLookup] at h
  | num f q => simp [childLookup] at h
  | str s2 => simp [childLookup] at h

theorem lookupKey_of_mem {m : List (String × Value)} {k : String} {c : Value}
    (hnd : nodupKeys (m.map Prod.fst) = true) (h : (k, c) ∈ m) :
    lookupKey k m = some c := by
  induction m with
  | nil => simp at h
  | cons kv rest ih =>
    obtain ⟨k2, v2⟩ := kv
    simp only [List.map_cons] at hnd
    rw [nodupKeys] at hnd
    simp only [Bool.and_eq_true, Bool.not_eq_true'] at hnd
    rcases List.mem_cons.mp h with hm | hm
    · have h1 : k = k2 ∧ c = v2 := by simpa using hm
      obtain ⟨rfl, rfl⟩ := h1
      simp [lookupKey]
    · rw [lookupKey]
      have hk : k ≠ k2 := by
        intro he
        subst he
        have hc : (rest.map Prod.fst).contains k = true := by
          rw [List.contains_eq_any_beq]
          exact List.any_eq_true.mpr ⟨k, List.mem_map.mpr ⟨(k, c), hm, rfl⟩, by simp⟩
        rw [hnd.1] at hc
        exact Bool.false_ne_true hc
      rw [if_neg hk]
      exact ih hnd.2 hm

theorem mem_childEntries_lookup {v c : Value} {s : Seg}
    (hnd : nodupV v = true) (h : (s, c) ∈ childEntries v) :
    childLookup v s = some c := by
  cases v with
  | map m =>
    simp only [childEntries, List.mem_map] at h
    rcases h with ⟨⟨k, w⟩, hm, he⟩
    have h1 : s = Seg.key k ∧ c = w := by
      constructor <;> · injection he with h1 h2; simp [h1.symm, h2.symm]
    obtain ⟨rfl, rfl⟩ := h1
    rw [nodupV] at hnd
    simp only [Bool.and_eq_true] at hnd
    exact lookupKey_of_mem hnd.1 hm
  | seq xs =>
    simp only [childEntries, List.enum, List.mem_map] at h
    rcases h with ⟨⟨j, w⟩, hm, he⟩
    have h1 : s = Seg.idx j ∧ c = w := by
      constructor <;> · injection he with h1 h2; simp [h1.symm, h2.symm]
    obtain ⟨rfl, rfl⟩ := h1
    have h2 := get?_of_mem_enumFrom hm
    simpa [childLookup] using h2.2
  | null => simp [childEntries] at h
  | bool b => simp [childEntries] at h
  | num f q => simp [childEntries] at h
  | str s2 => simp [childEntries] at h

theorem nodupVM_mem {m : List (String × Value)} {k : String} {c : Value}
    (hnd : nodupVM m = true) (h : (k, c) ∈ m) : nodupV c = true := by
  induction m with
  | nil => simp at h
  | cons kv rest ih =>
    rw [nodupVM] at hnd
    simp only [Bool.and_eq_true] at hnd
    rcases List.mem_cons.mp h with h | h
    · have : c = kv.2 := by
        obtain ⟨k2, v2⟩ := kv
        have h1 : k = k2 ∧ c = v2 := by simpa using h
        simp [h1.2]
      rw [this]; exact hnd.1
    · exact ih hnd.2 h

theorem nodupVL_mem {xs : List Value} {c : Value}
    (hnd : nodupVL xs = true) (h : c ∈ xs) : nodupV c = true := by
  induction xs with
  | nil => simp at h
  | cons x rest ih =>
    rw [nodupVL] at hnd
    simp only [Bool.and_eq_true] at hnd
    rcases List.mem_cons.mp h with h | h
    · rw [h]; exact hnd.1
    · exact ih hnd.2 h

theorem nodupV_of_mem_childEntries {v c : Value} {s : Seg}
    (hnd : nodupV v = true) (h : (s, c) ∈ childEntries v) : nodupV c = true := by
  cases v with
  | map m =>
    simp only [childEntries, List.mem_map] at h
    rcases h with ⟨⟨k, w⟩, hm, he⟩
    have hc : c = w := by injection he with h1 h2; simp [h2.symm]
    rw [nodupV] at hnd
    simp only [Bool.and_eq_true] at hnd
    rw [hc]
    exact nodupVM_mem hnd.2 hm
  | seq xs =>
    simp only [childEntries, List.enum, List.mem_map] at h
    rcases h with ⟨⟨j, w⟩, hm, he⟩
    have hc : c = w := by injection he with h1 h2; simp [h2.symm]
    have h2 := get?_of_mem_enumFrom hm
    have hmem : w ∈ xs := by
      have := h2.2
      exact List.get?_mem this
    rw [hc]
    exact nodupVL_mem (by simpa [nodupV] using hnd) hmem
  | null => simp [childEntries] at h
  | bool b => simp [childEntries] at h
  | num f q => simp [childEntries] at h
  | str s2 => simp [childEntries] at h

theorem nodupV_childLookup {v c : Value} {s : Seg}
    (hnd : nodupV v = true) (h : childLookup v s = some c) : nodupV c = true :=
  nodupV_of_mem_childEntries hnd (childLookup_mem h)

theorem nodupV_lookupPath {root u : Value} {p : List Seg}
    (hnd : nodupV root = true) (h : lookupPath root p = some u) : nodupV u = true := by
  induction p generalizing root with
  | nil => rw [lookupPath] at h; injection h with h; rw [← h]; exact hnd
  | cons s rest ih =>
    rw [lookupPath] at h
    cases hc : childLookup root s with
    | none => rw [hc] at h; simp at h
    | some c =>
      rw [hc] at h
      exact ih (nodupV_childLookup hnd hc) h

theorem level_sound {root : Value} (hnd : nodupV root = true) :
    ∀ {k : ℕ} {e : List Seg × Value}, e ∈ level root k →
      lookupPath root e.1 = some e.2 := by
  intro k
  induction k with
  | zero => intro e he; simp [level] at he; simp [he, lookupPath]
  | succ k ih =>
    intro e he
    rw [level] at he
    rcases mem_flatChildren.mp he with ⟨pv, hpv, sv, hsv, rfl⟩
    have h1 : lookupPath root pv.1 = some pv.2 := ih hpv
    have h2 : nodupV pv.2 = true := nodupV_lookupPath hnd h1
    have h3 : childLookup pv.2 sv.1 = some sv.2 :=
      mem_childEntries_lookup h2 (by simpa using hsv)
    show lookupPath root (pv.1 ++ [sv.1]) = some sv.2
    rw [lookupPath_append, h1]
    simpa [lookupPath_singleton] using h3

theorem level_complete {root : Value} :
    ∀ {k : ℕ} {p : List Seg} {u : Value}, p.length = k →
      lookupPath root p = some u → (p, u) ∈ level root k := by
  intro k
  induction k with
  | zero =>
    intro p u hl hp
    rw [List.length_eq_zero] at hl
    subst hl
    rw [lookupPath] at hp
    injection hp with hp
    simp [level, hp]
  | succ k ih =>
    intro p u hl hp
    have hne : p ≠ [] := by
      intro he
      rw [he, List.length_nil] at hl
      exact Nat.succ_ne_zero k hl.symm
    obtain ⟨q, s, rfl⟩ : ∃ q s, p = q ++ [s] :=
      ⟨p.dropLast, p.getLast hne, (List.dropLast_append_getLast hne).symm⟩
    have hql : q.length = k := by
      rw [List.length_append] at hl
      simpa using hl
    rw [lookupPath_append] at hp
    cases hq : lookupPath root q with
    | none => rw [hq] at hp; simp at hp
    | some n0 =>
      rw [hq] at hp
      simp only [Option.some_bind] at hp
      rw [lookupPath_singleton] at hp
      have hmem : (q, n0) ∈ level root k := ih hql hq
      rw [level]
      exact mem_flatChildren.mpr ⟨(q, n0), hmem, (s, u), childLookup_mem hp, rfl⟩

theorem lookupPath_length_lt {p : List Seg} :
    ∀ {v u : Value}, lookupPath v p = some u → p.length < vsize v := by
  induction p with
  | nil => intro v u _; simpa using vsize_pos v
  | cons s rest ih =>
    intro v u h
    rw [lookupPath] at h
    cases hc : childLookup v s with
    | none => rw [hc] at h; simp at h
    | some c =>
      rw [hc] at h
      have h1 := ih h
      have h2 : vsize c < vsize v := mem_childEntries_vsize (childLookup_mem hc)
      simp only [List.length_cons]
      omega

theorem mem_bfsOrder {root u : Value} {p : List Seg}
    (h : lookupPath root p = some u) : (p, u) ∈ bfsOrder root := by
  rw [bfsOrder]
  cases hp : p with
  | nil =>
    subst hp
    rw [lookupPath] at h
    injection h with h
    simp [h]
  | cons s rest =>
    subst hp
    refine List.mem_cons_of_mem _ ?_
    have hlen : (s :: rest).length < vsize root := lookupPath_length_lt h
    have hmem : (s :: rest, u) ∈ level root (s :: rest).length := level_complete rfl h
    rw [List.mem_flatten]
    refine ⟨level root ((s :: rest).length - 1 + 1), ?_, ?_⟩
    · rw [List.mem_map]
      exact ⟨(s :: rest).length - 1, List.mem_range.mpr (by simp at hlen ⊢; omega), rfl⟩
    · have : (s :: rest).length - 1 + 1 = (s :: rest).length := by simp
      rw [this]
      exact hmem

theorem bfsOrder_sound {root : Value} (hnd : nodupV root = true)
    {e : List Seg × Value} (he : e ∈ bfsOrder root) :
    lookupPath root e.1 = some e.2 := by
  rw [bfsOrder] at he
  rcases List.mem_cons.mp he with he | he
  · rw [he]; rfl
  · rw [List.mem_flatten] at he
    rcases he with ⟨l, hl, hel⟩
    rw [List.mem_map] at hl
    rcases hl with ⟨i, _, rfl⟩
    exact level_sound hnd hel

/-- `a` occurs strictly before `b` in the segment list `l`. -/
def segsBefore (a b : Seg) : List Seg → Bool
  | [] => false
  | x :: xs => (x == a && xs.contains b) || segsBefore a b xs

/-- `p` comes strictly before `q` among same-depth paths in breadth-first
visiting order: at the first differing segment, `p`'s segment occurs earlier
in the parent's child list (insertion order for mappings, index order for
sequences). -/
def pathLexBefore : Value → List Seg → List Seg → Bool
  | v, s1 :: p2, s2 :: q2 =>
    if s1 = s2 then
      match childLookup v s1 with
      | some c => pathLexBefore c p2 q2
      | none => false
    else segsBefore s1 s2 ((childEntries v).map Prod.fst)
  | _, _, _ => false

/-- `p` is visited strictly before `q` by the breadth-first search: it is
shallower, or of equal depth and earlier in visiting order. -/
def pathOrderLt (root : Value) (p q : List Seg) : Bool :=
  if p.length < q.length then true
  else if p.length = q.length then pathLexBefore root p q
  else false

theorem segsBefore_cons {a b x : Seg} {xs : List Seg}
    (h : segsBefore a b xs = true) : segsBefore a b (x :: xs) = true := by
  rw [segsBefore]
  simp [h]

theorem mem_contains_seg {b : Seg} {xs : List Seg} (h : b ∈ xs) :
    xs.contains b = true := by
  rw [List.contains_eq_any_beq]
  exact List.any_eq_true.mpr ⟨b, h, by simp⟩

theorem pairwise_segsBefore {l : List (Seg × Value)}
    (hnd : (l.map Prod.fst).Nodup) :
    l.Pairwise (fun e1 e2 =>
      segsBefore e1.1 e2.1 (l.map Prod.fst) = true ∧ e1.1 ≠ e2.1) := by
  induction l with
  | nil => exact List.Pairwise.nil
  | cons x xs ih =>
    rw [List.map_cons, List.nodup_cons] at hnd
    refine List.Pairwise.cons ?_ ?_
    · intro e he
      constructor
      · rw [List.map_cons, segsBefore]
        have hc : (xs.map Prod.fst).contains e.1 = true :=
          mem_contains_seg (List.mem_map.mpr ⟨e, he, rfl⟩)
        rw [hc]
        simp
      · intro hex
        exact hnd.1 (hex ▸ List.mem_map.mpr ⟨e, he, rfl⟩)
    · refine (ih hnd.2).imp ?_
      intro a b hab
      exact ⟨by rw [List.map_cons]; exact segsBefore_cons hab.1, hab.2⟩

theorem pathLexBefore_snoc {root : Value} {p : List Seg} {n : Value} {s1 s2 : Seg}
    (hp : lookupPath root p = some n) (hne : s1 ≠ s2)
    (hsb : segsBefore s1 s2 ((childEntries n).map Prod.fst) = true) :
    pathLexBefore root (p ++ [s1]) (p ++ [s2]) = true := by
  induction p generalizing root with
  | nil =>
    rw [lookupPath] at hp
    injection hp with hp
    subst hp
    simp only [List.nil_append]
    rw [pathLexBefore, if_neg hne]
    exact hsb
  | cons s rest ih =>
    rw [lookupPath] at hp
    cases hc : childLookup root s with
    | none => rw [hc] at hp; simp at hp
    | some c =>
      rw [hc] at hp
      simp only [List.cons_append]
      rw [pathLexBefore, if_pos rfl, hc]
      exact ih hp

theorem pathLexBefore_append {p1 : List Seg} :
    ∀ {p2 : List Seg} {root : Value} {s t : Seg}, p1.length = p2.length →
      pathLexBefore root p1 p2 = true →
      pathLexBefore root (p1 ++ [s]) (p2 ++ [t]) = true := by
  induction p1 with
  | nil =>
    intro p2 root s t hl h
    have : p2 = [] := by
      cases p2 with
      | nil => rfl
      | cons a b => simp at hl
    subst this
    simp [pathLexBefore] at h
  | cons s1 p1 ih =>
    intro p2 root s t hl h
    cases p2 with
    | nil => simp at hl
    | cons s2 q2 =>
      simp only [List.length_cons, Nat.succ.injEq] at hl
      rw [pathLexBefore] at h
      simp only [List.cons_append]
      rw [pathLexBefore]
      by_cases he : s1 = s2
      · rw [if_pos he] at h ⊢
        cases hc : childLookup root s1 with
        | none => simp [hc] at h
        | some c =>
          simp only [hc] at h ⊢
          exact ih hl h
      · rw [if_neg he] at h ⊢
        exact h

theorem mem_contains_true {α : Type} [BEq α] [LawfulBEq α] {b : α} {xs : List α}
    (h : b ∈ xs) : xs.contains b = true := by
  rw [List.contains_eq_any_beq]
  exact List.any_eq_true.mpr ⟨b, h, by simp⟩

theorem nodupKeys_nodup {l : List String} (h : nodupKeys l = true) : l.Nodup := by
  induction l with
  | nil => exact List.nodup_nil
  | cons k rest ih =>
    rw [nodupKeys] at h
    simp only [Bool.and_eq_true, Bool.not_eq_true'] at h
    refine List.nodup_cons.mpr ⟨?_, ih h.2⟩
    intro hm
    rw [mem_contains_true hm] at h
    exact absurd h.1 (by simp)

theorem enumFrom_idx_nodup (xs : List Value) :
    ∀ n, ((List.enumFrom n xs).map (fun p => Seg.idx p.1)).Nodup := by
  induction xs with
  | nil => intro n; simp [List.enumFrom]
  | cons x xs ih =>
    intro n
    rw [List.enumFrom, List.map_cons]
    refine List.nodup_cons.mpr ⟨?_, ih (n + 1)⟩
    intro hm
    rw [List.mem_map] at hm
    rcases hm with ⟨⟨j, c⟩, hmem, heq⟩
    have hj : n + 1 ≤ j := (get?_of_mem_enumFrom hmem).1
    have : n = j := by injection heq.symm
    omega

theorem segFst_nodup {v : Value} (hnd : nodupV v = true) :
    ((childEntries v).map Prod.fst).Nodup := by
  cases v with
  | map m =>
    rw [nodupV] at hnd
    simp only [Bool.and_eq_true] at hnd
    have h1 : (m.map Prod.fst).Nodup := nodupKeys_nodup hnd.1
    have h2 : (childEntries (Value.map m)).map Prod.fst
        = (m.map Prod.fst).map Seg.key := by
      simp [childEntries, List.map_map]
    rw [h2]
    exact h1.map (fun a b h => by injection h)
  | seq xs =>
    have h2 : (childEntries (Value.seq xs)).map Prod.fst
        = (List.enumFrom 0 xs).map (fun p => Seg.idx p.1) := by
      simp [childEntries, List.enum, List.map_map]
    rw [h2]
    exact enumFrom_idx_nodup xs 0
  | null => simp [childEntries]
  | bool b => simp [childEntries]
  | num f q => simp [childEntries]
  | str s => simp [childEntries]

theorem level_pairwise {root : Value} (hnd : nodupV root = true) :
    ∀ k, (level root k).Pairwise (fun a b => pathLexBefore root a.1 b.1 = true) := by
  intro k
  induction k with
  | zero => simp [level]
  | succ k ih =>
    rw [level, flatChildren, List.pairwise_flatten]
    constructor
    · intro l hl
      rw [List.mem_map] at hl
      rcases hl with ⟨pv, hpv, rfl⟩
      have hval : lookupPath root pv.1 = some pv.2 := level_sound hnd hpv
      have hsnd : nodupV pv.2 = true := nodupV_lookupPath hnd hval
      have hpw := pairwise_segsBefore (segFst_nodup hsnd)
      rw [List.pairwise_map]
      refine hpw.imp ?_
      intro a b hab
      exact pathLexBefore_snoc hval hab.2 hab.1
    · have hpar : (level root k).Pairwise (fun pv1 pv2 =>
          ∀ x ∈ (childEntries pv1.2).map (fun sv => (pv1.1 ++ [sv.1], sv.2)),
          ∀ y ∈ (childEntries pv2.2).map (fun sv => (pv2.1 ++ [sv.1], sv.2)),
            pathLexBefore root x.1 y.1 = true) := by
        refine ih.imp_of_mem ?_
        intro pv1 pv2 h1 h2 hr
        intro x hx y hy
        rw [List.mem_map] at hx hy
        rcases hx with ⟨sv1, _, rfl⟩
        rcases hy with ⟨sv2, _, rfl⟩
        have hl1 : pv1.1.length = k := level_length h1
        have hl2 : pv2.1.length = k := level_length h2
        exact pathLexBefore_append (by omega) hr
      exact List.pairwise_map.mpr hpar

theorem bfsOrder_pairwise {root : Value} (hnd : nodupV root = true) :
    (bfsOrder root).Pairwise (fun a b => pathOrderLt root a.1 b.1 = true) := by
  rw [bfsOrder]
  refine List.Pairwise.cons ?_ ?_
  · intro e he
    rw [List.mem_flatten] at he
    rcases he with ⟨l, hl, hel⟩
    rw [List.mem_map] at hl
    rcases hl with ⟨i, _, rfl⟩
    have hlen : e.1.length = i + 1 := level_length hel
    rw [pathOrderLt, if_pos (by simp [hlen])]
  · rw [List.pairwise_flatten]
    constructor
    · intro l hl
      rw [List.mem_map] at hl
      rcases hl with ⟨i, _, rfl⟩
      refine (level_pairwise hnd (i + 1)).imp_of_mem ?_
      intro a b ha hb hr
      have la : a.1.length = i + 1 := level_length ha
      have lb : b.1.length = i + 1 := level_length hb
      rw [pathOrderLt, if_neg (by omega), if_pos (by omega)]
      exact hr
    · refine List.Pairwise.map _ ?_ (List.pairwise_lt_range (vsize root))
      intro i j hij x hx y hy
      have lx : x.1.length = i + 1 := level_length hx
      have ly : y.1.length = j + 1 := level_length hy
      rw [pathOrderLt, if_pos (by omega)]

theorem find_first_sorted {α : Type} {R : α → α → Prop} {p : α → Bool} :
    ∀ {l : List α} {a : α}, l.Pairwise R → l.find? p = some a →
      ∀ b ∈ l, p b = true → b ≠ a → R a b := by
  intro l
  induction l with
  | nil => intro a _ hf; simp at hf
  | cons x xs ih =>
    intro a hpw hf b hb hpb hne
    rw [List.pairwise_cons] at hpw
    by_cases hp : p x = true
    · rw [List.find?_cons_of_pos _ hp] at hf
      injection hf with hf
      subst hf
      rcases List.mem_cons.mp hb with rfl | hb2
      · exact absurd rfl hne
      · exact hpw.1 b hb2
    · rw [List.find?_cons_of_neg _ hp] at hf
      rcases List.mem_cons.mp hb with rfl | hb2
      · exact absurd hpb hp
      · exact ih hpw.2 hf b hb2 hpb hne

/-- C2 — `find_subnode_path` returns the empty path exactly on an equal root;
a returned path traverses to an `==`-equal descendant and is visited strictly
before every other matching descendant (shallowest first, breadth-first
visiting order among equal depths); and it returns `None` exactly when no
descendant (the root included) is equal to the target. -/
theorem find_subnode_path_spec (root t : Value) (hnd : nodupV root = true) :
    (pythonEq root t = true → find_subnode_path root t = some []) ∧
    (∀ p, find_subnode_path root t = some p →
      ∃ u, lookupPath root p = some u ∧ pythonEq u t = true ∧
        ∀ q w, lookupPath root q = some w → pythonEq w t = true → q ≠ p →
          pathOrderLt root p q = true) ∧
    (find_subnode_path root t = none ↔
      ∀ p u, lookupPath root p = some u → pythonEq u t = false) := by
  refine ⟨?_, ?_, ?_, ?_⟩
  · intro h
    rw [find_subnode_path, if_pos h]
  · intro p hp
    rw [find_subnode_path_eq_find] at hp
    cases hf : (bfsOrder root).find? (fun pv => pythonEq pv.2 t) with
    | none => rw [hf] at hp; simp at hp
    | some e =>
      rw [hf] at hp
      have hpe : p = e.1 := by
        have : (some e).map Prod.fst = some e.1 := rfl
        rw [this] at hp
        injection hp with hp
        exact hp.symm
      subst hpe
      refine ⟨e.2, bfsOrder_sound hnd (List.mem_of_find?_eq_some hf),
        by simpa using List.find?_some hf, ?_⟩
      intro q w hq hw hne
      have hmem : (q, w) ∈ bfsOrder root := mem_bfsOrder hq
      have hbe : (q, w) ≠ e := by
        intro he2
        apply hne
        rw [← he2]
      exact find_first_sorted (bfsOrder_pairwise hnd) hf (q, w) hmem
        (by simpa using hw) hbe
  · intro hn p u hp
    rw [find_subnode_path_eq_find] at hn
    have hfn : (bfsOrder root).find? (fun pv => pythonEq pv.2 t) = none := by
      cases hf : (bfsOrder root).find? (fun pv => pythonEq pv.2 t) with
      | none => rfl
      | some e => rw [hf] at hn; simp at hn
    rw [List.find?_eq_none] at hfn
    have := hfn (p, u) (mem_bfsOrder hp)
    simpa using this
  · intro hall
    rw [find_subnode_path_eq_find]
    have hfn : (bfsOrder root).find? (fun pv => pythonEq pv.2 t) = none := by
      rw [List.find?_eq_none]
      intro x hx
      have hv := bfsOrder_sound hnd hx
      have := hall x.1 x.2 hv
      simp [this]
    rw [hfn]
    rfl

/-- Witness for C2 at a concrete document: the root `{"a": {"b": 42}}` with
target `{"b": 42}` yields the path `["a"]`, and with the root itself as the
target yields the empty path. -/
theorem find_subnode_path_spec_witness :
    find_subnode_path (.map [("a", .map [("b", .num false 42)])])
        (.map [("b", .num false 42)]) = some [Seg.key "a"]
      ∧ find_subnode_path (.map [("a", .map [("b", .num false 42)])])
        (.map [("a", .map [("b", .num false 42)])]) = some [] := by
  constructor
  · have h := (find_subnode_path_spec (.map [("a", .map [("b", .num false 42)])])
      (.map [("b", .num false 42)]) (by decide)).2.2
    -- direct evaluation, cross-checked against the spec theorem: the result is
    -- not `none` because the descendant at ["a"] matches
    have hnn : find_subnode_path (.map [("a", .map [("b", .num false 42)])])
        (.map [("b", .num false 42)]) ≠ none := by
      intro hcon
      have := (h.mp hcon) [Seg.key "a"] (.map [("b", .num false 42)])
        (by simp [lookupPath, childLookup, lookupKey])
      simp [pythonEq, pythonEqList, pythonEqEntries, lookupKey] at this
    simp [find_subnode_path, pythonEq, pythonEqEntries, pythonEqList, lookupKey,
      bfs, childEntries]
  · exact (find_subnode_path_spec _ _ (by decide)).1 (by decide)

/-! ## Expression construction helpers -/

/-- The single-quote character (used in non-identifier bracket accessors). -/
def squote : Char := Char.ofNat 39

/-- Decimal digit character. -/
def digitChar (n : ℕ) : Char := Char.ofNat (48 + n)

/-- Decimal digits of `n`, most significant first, via a structural fuel. -/
def natDigitsAux : ℕ → ℕ → List Char
  | 0, _ => []
  | fuel + 1, n =>
    if n = 0 then [] else natDigitsAux fuel (n / 10) ++ [digitChar (n % 10)]

/-- Decimal rendering of a natural number (Python `str`/`repr` of an `int`). -/
def natToString (n : ℕ) : String := if n = 0 then "0" else ⟨natDigitsAux (n + 1) n⟩

/-- Decimal rendering of an integer. -/
def intToString (i : ℤ) : String :=
  if i < 0 then "-" ++ natToString i.natAbs else natToString i.natAbs

/-- Lowercase hexadecimal digit. -/
def hexDigit (n : ℕ) : Char := if n < 10 then Char.ofNat (48 + n) else Char.ofNat (87 + n)

/-- Four lowercase hex digits, as in JSON `\uXXXX` escapes. -/
def hex4 (n : ℕ) : List Char :=
  [hexDigit (n / 4096 % 16), hexDigit (n / 256 % 16), hexDigit (n / 16 % 16),
   hexDigit (n % 16)]

/-- JSON escaping of one character as done by Python `json.dumps`: short
escapes for quote, backslash and common control characters, `\uXXXX` for other
control characters, and (when `ensureAscii` — the `json.dumps` default) for
every character outside printable ASCII, astral characters as surrogate
pairs. -/
def escChar (ensureAscii : Bool) (c : Char) : List Char :=
  if c = '"' then ['\\', '"']
  else if c = '\\' then ['\\', '\\']
  else if c = '\n' then ['\\', 'n']
  else if c = '\t' then ['\\', 't']
  else if c = '\r' then ['\\', 'r']
  else if c = Char.ofNat 8 then ['\\', 'b']
  else if c = Char.ofNat 12 then ['\\', 'f']
  else if c.toNat < 32 then '\\' :: 'u' :: hex4 c.toNat
  else if ensureAscii && 126 < c.toNat then
    if c.toNat < 65536 then '\\' :: 'u' :: hex4 c.toNat
    else
      ('\\' :: 'u' :: hex4 (55296 + (c.toNat - 65536) / 1024))
        ++ ('\\' :: 'u' :: hex4 (56320 + (c.toNat - 65536) % 1024))
  else [c]

/-- A JSON string literal: `json.dumps` applied to a Python `str`. -/
def escString (ensureAscii : Bool) (s : String) : String :=
  ⟨'"' :: s.data.foldr (fun c acc => escChar ensureAscii c ++ acc) ['"']⟩

/-- Smallest number of decimal digits after the point needed to write the
rational exactly, with fuel. -/
def decExpAux : ℕ → ℚ → Option ℕ
  | 0, _ => none
  | fuel + 1, q => if q.den = 1 then some 0 else (decExpAux fuel (q * 10)).map (· + 1)

/-- Smallest number of decimal digits after the point needed to write the
rational exactly (`none` if 400 digits do not suffice — decoded floats are
dyadic rationals and always fit). -/
def decExp (q : ℚ) : Option ℕ := decExpAux 400 q

/-- Zero-padded `k`-digit decimal rendering. -/
def padZeros (k m : ℕ) : String :=
  ⟨List.replicate (k - (natToString m).length) '0'⟩ ++ natToString m

/-- Python `repr` of a float, modelled for decimal-exact values: the shortest
decimal with at least one digit after the point (`repr(1.0) == "1.0"`,
`repr(0.5) == "0.5"`). -/
def floatRepr (q : ℚ) : String :=
  let sign : String := if q < 0 then "-" else ""
  let a := |q|
  match decExp a with
  | some k =>
    let k1 := max k 1
    let n := (a * 10 ^ k1).num.toNat
    sign ++ natToString (n / 10 ^ k1) ++ "." ++ padZeros k1 (n % 10 ^ k1)
  | none => sign ++ "inf"

/-- Rendering of a Python number: `repr` of an `int` or of a `float`
(for an `int` the value is its numerator; well-formed values have
denominator 1). -/
def numRepr (isFloat : Bool) (q : ℚ) : String :=
  if isFloat then floatRepr q else intToString q.num

mutual
/-- Python `json.dumps(obj)` with the default compact separators
`", "` / `": "` and default `ensure_ascii=True`. -/
def jdump : Value → String
  | .null => "null"
  | .bool b => if b then "true" else "false"
  | .num f q => numRepr f q
  | .str s => escString true s
  | .seq xs => "[" ++ jdumpItems xs ++ "]"
  | .map m => "\x7b" ++ jdumpEntries m ++ "\x7d"

/-- Comma-separated sequence items of `jdump`. -/
def jdumpItems : List Value → String
  | [] => ""
  | [x] => jdump x
  | x :: y :: ys => jdump x ++ ", " ++ jdumpItems (y :: ys)

/-- Comma-separated mapping entries of `jdump`. -/
def jdumpEntries : List (String × Value) → String
  | [] => ""
  | [(k, v)] => escString true k ++ ": " ++ jdump v
  | (k, v) :: e :: es => escString true k ++ ": " ++ jdump v ++ ", " ++ jdumpEntries (e :: es)
end

/-- `n` spaces. -/
def spaces (n : ℕ) : String := ⟨List.replicate n ' '⟩

mutual
/-- `json.dumps(obj, indent=2, ensure_ascii=False)` at nesting indent `ind`:
the rendering performed by `pretty_json` in the source. -/
def pjson (ind : ℕ) : Value → String
  | .null => "null"
  | .bool b => if b then "true" else "false"
  | .num f q => numRepr f q
  | .str s => escString false s
  | .seq [] => "[]"
  | .seq (x :: xs) =>
    "[\n" ++ pjsonItems (ind + 2) (x :: xs) ++ "\n" ++ spaces ind ++ "]"
  | .map [] => "\x7b\x7d"
  | .map (kv :: kvs) =>
    "\x7b\n" ++ pjsonEntries (ind + 2) (kv :: kvs) ++ "\n" ++ spaces ind ++ "\x7d"

/-- Indented, comma-newline separated sequence items of `pjson`. -/
def pjsonItems (ind : ℕ) : List Value → String
  | [] => ""
  | [x] => spaces ind ++ pjson ind x
  | x :: y :: ys => spaces ind ++ pjson ind x ++ ",\n" ++ pjsonItems ind (y :: ys)

/-- Indented, comma-newline separated mapping entries of `pjson`. -/
def pjsonEntries (ind : ℕ) : List (String × Value) → String
  | [] => ""
  | [(k, v)] => spaces ind ++ escString false k ++ ": " ++ pjson ind v
  | (k, v) :: e :: es =>
    spaces ind ++ escString false k ++ ": " ++ pjson ind v ++ ",\n"
      ++ pjsonEntries ind (e :: es)
end

/-- `pretty_json` from the source: `json.dumps(obj, indent=2, ensure_ascii=False)`. -/
def pretty_json (v : Value) : String := pjson 0 v

/-- Python `str.isidentifier`, modelled for ASCII strings (the identifier
characters of the synthesized expressions): a letter or underscore followed
by letters, digits or underscores. -/
def isIdentifier (s : String) : Bool :=
  match s.data with
  | [] => false
  | c :: rest => (c.isAlpha || c = '_') && rest.all (fun d => d.isAlphanum || d = '_')

/-- Python `p.replace("'", "\\'")`: escape embedded single quotes. -/
def escSingleQuote (s : String) : String :=
  ⟨s.data.foldr (fun c acc => if c = squote then '\\' :: squote :: acc else c :: acc) []⟩

/-- One step of the `parts` accumulation of `path_to_jmespath`: an index
becomes `[i]`, an identifier-safe key becomes `.key` (bare for the first
part), any other key becomes a quoted bracket access. -/
def segPart (parts : List String) (p : Seg) : List String :=
  match p with
  | .idx i => parts ++ ["[" ++ natToString i ++ "]"]
  | .key k =>
    if isIdentifier k then
      if parts.isEmpty then parts ++ [k] else parts ++ ["." ++ k]
    else
      parts ++ ["[" ++ String.singleton squote ++ escSingleQuote k
        ++ String.singleton squote ++ "]"]

/-- `path_to_jmespath` from the source: accessor string for a path, `"@"` for
the empty path. -/
def path_to_jmespath (path : List Seg) : String :=
  let parts := path.foldl segPart []
  if parts.isEmpty then "@" else String.join parts

/-- `json_query_expr` from the source: wrap a JMESPath string as a Jinja
`json_query` filter expression. -/
def json_query_expr (jq : String) : String :=
  "\x7b\x7b selected | json_query(" ++ escString true jq ++ ") \x7d\x7d"

/-! ## Detection heuristics -/

/-- Lexicographic code-point comparison of strings (`a <= b` in Python). -/
def strLeB : List Char → List Char → Bool
  | [], _ => true
  | _ :: _, [] => false
  | a :: as, b :: bs =>
    if a.toNat < b.toNat then true
    else if b.toNat < a.toNat then false
    else strLeB as bs

/-- The string order used by the detection rules. -/
def keyLe (a b : String) : Bool := strLeB a.data b.data

/-- Stable insertion into a `keyLe`-sorted list. -/
def insSorted (x : String) : List String → List String
  | [] => [x]
  | y :: ys => if keyLe x y then x :: y :: ys else y :: insSorted x ys

/-- Python `sorted` on strings: ascending lexicographic (code point) order,
by insertion sort. -/
def sortKeys (l : List String) : List String := l.foldr insSorted []

/-- The entry list of a mapping value, `none` for any other value
(`isinstance(x, dict)` guard). -/
def asDict : Value → Option (List (String × Value))
  | .map m => some m
  | _ => none

/-- The `all(isinstance(x, dict) for x in source)` view: the entry lists of
all elements when every element is a mapping, otherwise `none`. -/
def allDicts : List Value → Option (List (List (String × Value)))
  | [] => some []
  | x :: xs =>
    match asDict x, allDicts xs with
    | some d, some ds => some (d :: ds)
    | _, _ => none

/-- Python `dict.get(key)`: the value under `key`, or `None` when absent. -/
def dictGet (m : List (String × Value)) (k : String) : Value :=
  match lookupKey k m with
  | some v => v
  | none => .null

/-- Python `d.get(k)` on a dict-shaped value (`Null` if not a mapping). -/
def dictGetV (d : Value) (k : String) : Value :=
  match d with
  | .map m => dictGet m k
  | _ => .null

/-- The running set-intersection loop of `detect_projection`:
`common &= set(it.keys())`, returning `None` as soon as it is empty. -/
def commonKeys : List String → List (List (String × Value)) → Option (List String)
  | acc, [] => some acc
  | acc, m :: rest =>
    let acc2 := acc.filter (fun k => (lookupKey k m).isSome)
    if acc2.isEmpty then none else commonKeys acc2 rest

/-- The projection query string `[].<key>`, quoting non-identifier keys
(`f"[].{key}" if key.isidentifier() else f"[].{json.dumps(key)}"`). -/
def projJq (key : String) : String :=
  if isIdentifier key then "[]." ++ key else "[]." ++ escString true key

/-- `detect_projection` from the source: both values must be lists, the source
non-empty and all of its elements dicts; intersect the key sets of the source
elements; for each common key in sorted order project
`[it.get(key) for it in source]` and return the `json_query` projection
expression for the first key whose projection equals the target. -/
def detect_projection (source target : Value) : Option String :=
  match source, target with
  | .seq src, .seq tgt =>
    if src.isEmpty then none
    else
      match allDicts src with
      | none => none
      | some dicts =>
        match dicts with
        | [] => none
        | d0 :: drest =>
          match commonKeys (d0.map Prod.fst) drest with
          | none => none
          | some common =>
            match (sortKeys common).find? (fun key =>
                pythonEq (.seq (dicts.map (fun it => dictGet it key))) (.seq tgt)) with
            | some key => some (json_query_expr (projJq key))
            | none => none
  | _, _ => none

/-- Union of the key lists, dropping duplicates (Python
`set().union(*[set(d.keys()) for d in source])`; the iteration order is
irrelevant because the caller sorts). -/
def keyUnion (ls : List (List String)) : List String :=
  ls.foldl (fun acc ks => acc ++ ks.filter (fun k => !acc.contains k)) []

/-- Keys of a mapping value (empty for any other value). -/
def valueKeys : Value → List String
  | .map m => m.map Prod.fst
  | _ => []

/-- Python hashability of a decoded value: scalars (`None`, `bool`, numbers,
`str`) are hashable, decoded containers (`list`, `dict`) are not. -/
def hashableV : Value → Bool
  | .seq _ => false
  | .map _ => false
  | _ => true

/-- `vals = {d.get(k) for d in target}; len(vals) == 1` — building the set
raises `TypeError` as soon as any value of `k` across the target is an
unhashable `list`/`dict`; otherwise the set has exactly one member iff every
value is Python-`==`-equal to the first element's value (`==`-equal hashable
values collapse in the set). -/
def targetUniqueVal (tgt : List Value) (k : String) : Except String (Option Value) :=
  if tgt.all (fun d => hashableV (dictGetV d k)) then
    .ok (match tgt with
      | [] => none
      | d0 :: rest =>
        if rest.all (fun d => pythonEq (dictGetV d k) (dictGetV d0 k)) then
          some (dictGetV d0 k)
        else none)
  else .error "unhashable type"

/-- The equality-filter query string `[?<key>==`<literal>`]`, quoting
non-identifier keys and JSON-encoding the value. -/
def eqFilterJq (k : String) (v : Value) : String :=
  (if isIdentifier k then "[?" ++ k else "[?" ++ escString true k)
    ++ "==`" ++ jdump v ++ "`]"

/-- The `for k in sorted(keys)` loop of `detect_filter_by_equality`: for each
key in order, build the target value set (which may raise `TypeError` on
unhashable values — the exception aborts the whole scan); on exactly one
distinct value `v`, filter the source in order and return the equality-filter
expression when the filtered list equals the target; otherwise continue with
the next key. -/
def eqFilterScan (src tgt : List Value) : List String → Except String (Option String)
  | [] => .ok none
  | k :: ks =>
    match targetUniqueVal tgt k with
    | .error e => .error e
    | .ok (some v) =>
      if pythonEq (.seq (src.filter (fun d => pythonEq (dictGetV d k) v))) (.seq tgt)
      then .ok (some (json_query_expr (eqFilterJq k v)))
      else eqFilterScan src tgt ks
    | .ok none => eqFilterScan src tgt ks

/-- `detect_filter_by_equality` from the source: both values must be
non-empty lists of dicts; scan the union of source keys in sorted order with
`eqFilterScan` — succeeding on the first key whose unique target value
filters the source to exactly the target, raising `TypeError` out of the
function when a scanned key meets an unhashable `list`/`dict` value in the
target, and returning `None` when the scan is exhausted. -/
def detect_filter_by_equality (source target : Value) : Except String (Option String) :=
  match source, target with
  | .seq src, .seq tgt =>
    if src.isEmpty || tgt.isEmpty then .ok none
    else if (src ++ tgt).all (fun x => (asDict x).isSome) then
      eqFilterScan src tgt (sortKeys (keyUnion (src.map valueKeys)))
    else .ok none
  | _, _ => .ok none

/-! ## The suggestion pipeline and session state -/

/-- The kind of a synthesized candidate (§3 of the specification). -/
inductive CandKind where
  | exactPath : CandKind
  | projection : CandKind
  | equalityFilter : CandKind
deriving Repr, DecidableEq

/-- A synthesized candidate: the Jinja `json_query` expression and the rule
that produced it. -/
structure Candidate where
  expression : String
  kind : CandKind
deriving Repr, DecidableEq

/-- Decidable equality for `Except` results (component-wise). -/
instance {e a : Type} [DecidableEq e] [DecidableEq a] : DecidableEq (Except e a) :=
  fun x y =>
    match x, y with
    | .error e1, .error e2 =>
      if h : e1 = e2 then isTrue (by rw [h])
      else isFalse (by intro hc; injection hc; contradiction)
    | .ok v1, .ok v2 =>
      if h : v1 = v2 then isTrue (by rw [h])
      else isFalse (by intro hc; injection hc; contradiction)
    | .error _, .ok _ => isFalse (by intro hc; exact Except.noConfusion hc)
    | .ok _, .error _ => isFalse (by intro hc; exact Except.noConfusion hc)

/-- The ordered heuristic pipeline of `infer_filter_from_edit` (steps A, B, C
of the source): exact sub-path first, then projection, then equality filter;
`.ok none` models the no-candidate outcome, and an uncaught `TypeError`
raised inside the equality-filter rule propagates as `.error`.  (The Python
code tests the returned expression strings for truthiness; they are never
empty, so `Option` is exact.) -/
def synthesize (source target : Value) : Except String (Option Candidate) :=
  match find_subnode_path source target with
  | some path => .ok (some ⟨json_query_expr (path_to_jmespath path), .exactPath⟩)
  | none =>
    match detect_projection source target with
    | some e => .ok (some ⟨e, .projection⟩)
    | none =>
      match detect_filter_by_equality source target with
      | .error e => .error e
      | .ok (some e) => .ok (some ⟨e, .equalityFilter⟩)
      | .ok none => .ok none

/-- The engine-relevant session state of the `This2That` app: the loaded
document, the currently selected source value, and the pending candidate with
its parsed target (`pending_suggestion` / `pending_target_obj`). -/
structure Session where
  data : Option Value
  selected : Option Value
  pending : Option String
  pendingTarget : Option Value
deriving Repr

/-- Outcome reported by `infer_filter_from_edit` on the suggestion bar. -/
inductive InferOutcome where
  | noSelection : InferOutcome
  | emptyText : InferOutcome
  | parseError : String → InferOutcome
  | suggested : String → InferOutcome
  | noCandidate : InferOutcome
  | raised : String → InferOutcome
deriving Repr, DecidableEq

/-- ASCII whitespace, as stripped by Python `str.strip`. -/
def isSpaceChar (c : Char) : Bool :=
  c = ' ' || c = '\t' || c = '\n' || c = '\r' || c = Char.ofNat 11 || c = Char.ofNat 12

/-- Python `str.strip()` (ASCII whitespace scope). -/
def pyStrip (s : String) : String :=
  ⟨((s.data.dropWhile isSpaceChar).reverse.dropWhile isSpaceChar).reverse⟩

/-- `This2That.infer_filter_from_edit` as a session transition, parameterized
by the external text decoder (`yaml_or_json_load` over the edited text):
guard on a selection, strip and parse the edited text, synthesize over a deep
copy of the selection (a pure value here), store the pending candidate and
target on success, and clear both on the no-candidate outcome.  A `TypeError`
raised inside synthesis propagates out of the method (`raised`) before any
assignment; every outcome other than success and no-candidate leaves the
session untouched. -/
def infer_filter_from_edit (decode : String → Except String Value)
    (st : Session) (txt : String) : Session × InferOutcome :=
  match st.selected with
  | none => (st, .noSelection)
  | some sel =>
    if pyStrip txt = "" then (st, .emptyText)
    else
      match decode (pyStrip txt) with
      | .error e => (st, .parseError e)
      | .ok target =>
        match synthesize sel target with
        | .error e => (st, .raised e)
        | .ok (some cand) =>
          ({ st with pending := some cand.expression, pendingTarget := some target },
            .suggested cand.expression)
        | .ok none =>
          ({ st with pending := none, pendingTarget := none }, .noCandidate)

/-- `This2That.verify_pending` as a session transition, parameterized by the
external evaluation-plus-decode chain (`evaluate_expression` followed by
`yaml_or_json_load` of the rendered result): with a pending candidate and
target, evaluate and compare with `deep_equal`; report `none` when there is
nothing pending or evaluation raised.  The session is returned unchanged —
the method only writes the suggestion bar. -/
def verify_pending (evalTo : String → Value → Option Value)
    (st : Session) : Session × Option Bool :=
  match st.pending, st.pendingTarget with
  | some expr, some tgt =>
    match evalTo expr (st.selected.getD .null) with
    | some r => (st, some (deep_equal r tgt))
    | none => (st, none)
  | _, _ => (st, none)

/-! ## Spec-modelled external evaluator

The expression evaluator is an external collaborator (Jinja2 with the Ansible
`json_query` filter over JMESPath, §4.3/§6 of the specification); its code is
not part of this repository.  The synthesized expressions fall in the
path-query mini-language of §6, modelled here from the specification's words:
`@` (identity), member access / subscripts (paths), `[].field` (projection:
"extracting one field from every element"), and `[?field==`literal`]`
(equality filter: "selecting elements … whose given field equals a fixed
value"). -/

/-- A query of the path-query mini-language of §6 (the structured form of
every expression the synthesizer emits). -/
inductive Query where
  | identity : Query
  | path : List Seg → Query
  | projection : String → Query
  | eqFilter : String → Value → Query
deriving Repr

/-- Modelled from the spec: evaluation of the §6 path-query mini-language by
the external evaluator (`@`, member access/subscript chains, `[].field`
projection over a sequence of mappings, `[?field==`lit`]` equality filter
over a sequence of mappings). -/
def evalQuery : Query → Value → Option Value
  | .identity, v => some v
  | .path p, v => lookupPath v p
  | .projection k, v =>
    match v with
    | .seq xs =>
      (xs.mapM asDict).map (fun ds => .seq (ds.map (fun d => dictGet d k)))
    | _ => none
  | .eqFilter k val, v =>
    match v with
    | .seq xs =>
      if xs.all (fun x => (asDict x).isSome) then
        some (.seq (xs.filter (fun d => pythonEq (dictGetV d k) val)))
      else none
    | _ => none

/-- Modelled from the spec: the verification loop of §4.6 for a mini-language
query — evaluate the candidate against the live source, normalize, and
compare structurally with the target; `passed` is the comparison result. -/
def verify_query (q : Query) (source target : Value) : Bool :=
  match evalQuery q source with
  | some r => deep_equal r target
  | none => false

/-! ## Parse-first decoding -/

/-- `yaml_or_json_load` from the source, parameterized over the two external
decoders: try YAML, and on any YAML exception fall back to `json.loads`; a
failure of the fallback propagates to the caller. -/
def yaml_or_json_load (yamlLoad jsonLoad : String → Except String Value)
    (text : String) : Except String Value :=
  match yamlLoad text with
  | .ok v => .ok v
  | .error _ => jsonLoad text

/-! ## Claim theorems -/

/-- C1 (amended) — `synthesize` (the pipeline of `infer_filter_from_edit`)
tries ExactPath, then Projection, then EqualityFilter; the first rule to
succeed determines the candidate and its kind and later rules are not
attempted; when every rule finishes without a match the result is the
non-error NoCandidate — but a `TypeError` raised inside the EqualityFilter
scan (an unhashable `list`/`dict` value of a scanned key in the target)
propagates out of the pipeline as an error instead of a result. -/
theorem synthesize_pipeline (s t : Value) :
    (∀ p, find_subnode_path s t = some p →
      synthesize s t = .ok (some ⟨json_query_expr (path_to_jmespath p), .exactPath⟩)) ∧
    (find_subnode_path s t = none → ∀ e, detect_projection s t = some e →
      synthesize s t = .ok (some ⟨e, .projection⟩)) ∧
    (find_subnode_path s t = none → detect_projection s t = none →
      ∀ e, detect_filter_by_equality s t = .ok (some e) →
        synthesize s t = .ok (some ⟨e, .equalityFilter⟩)) ∧
    (find_subnode_path s t = none → detect_projection s t = none →
      detect_filter_by_equality s t = .ok none → synthesize s t = .ok none) ∧
    (find_subnode_path s t = none → detect_projection s t = none →
      ∀ e, detect_filter_by_equality s t = .error e → synthesize s t = .error e) := by
  refine ⟨?_, ?_, ?_, ?_, ?_⟩
  · intro p hp
    simp [synthesize, hp]
  · intro h1 e h2
    simp [synthesize, h1, h2]
  · intro h1 h2 e h3
    simp [synthesize, h1, h2, h3]
  · intro h1 h2 h3
    simp [synthesize, h1, h2, h3]
  · intro h1 h2 e h3
    simp [synthesize, h1, h2, h3]

/-- C1 (counterexample) — the pipeline is not error-free: for source
`[{"a": {"x": 1}}, {"a": {"x": 2}}]` and target `[{"a": {"x": 2}}]` neither
ExactPath nor Projection applies, and instead of falling through to the
non-error NoCandidate the EqualityFilter rule's set comprehension
`{d.get(k) for d in target}` raises `TypeError` on the unhashable dict
value, which propagates uncaught out of `synthesize`. -/
theorem synthesize_pipeline_counterexample :
    find_subnode_path
        (.seq [.map [("a", .map [("x", .num false 1)])],
               .map [("a", .map [("x", .num false 2)])]])
        (.seq [.map [("a", .map [("x", .num false 2)])]]) = none
    ∧ detect_projection
        (.seq [.map [("a", .map [("x", .num false 1)])],
               .map [("a", .map [("x", .num false 2)])]])
        (.seq [.map [("a", .map [("x", .num false 2)])]]) = none
    ∧ synthesize
        (.seq [.map [("a", .map [("x", .num false 1)])],
               .map [("a", .map [("x", .num false 2)])]])
        (.seq [.map [("a", .map [("x", .num false 2)])]])
      = .error "unhashable type"
    ∧ ∀ o : Option Candidate,
        (Except.error "unhashable type" : Except String (Option Candidate)) ≠ .ok o := by
  have h1 : find_subnode_path
      (.seq [.map [("a", .map [("x", .num false 1)])],
             .map [("a", .map [("x", .num false 2)])]])
      (.seq [.map [("a", .map [("x", .num false 2)])]]) = none := by
    simp [find_subnode_path, pythonEq, pythonEqList, pythonEqEntries, lookupKey,
      bfs, childEntries, List.enum, List.enumFrom]
  have h2 : detect_projection
      (.seq [.map [("a", .map [("x", .num false 1)])],
             .map [("a", .map [("x", .num false 2)])]])
      (.seq [.map [("a", .map [("x", .num false 2)])]]) = none := by decide
  have h3 : detect_filter_by_equality
      (.seq [.map [("a", .map [("x", .num false 1)])],
             .map [("a", .map [("x", .num false 2)])]])
      (.seq [.map [("a", .map [("x", .num false 2)])]])
      = .error "unhashable type" := by decide
  exact ⟨h1, h2, by simp [synthesize, h1, h2, h3], fun o => by simp⟩

/-- Witness for the amended C1 at Scenario D of the specification: source
`[1,2,3]`, target `[1,2,3,4]` — no rule applies and no key is scanned, so
the pipeline returns the non-error NoCandidate. -/
theorem synthesize_pipeline_witness :
    synthesize (.seq [.num false 1, .num false 2, .num false 3])
      (.seq [.num false 1, .num false 2, .num false 3, .num false 4]) = .ok none := by
  apply (synthesize_pipeline _ _).2.2.2.1
  · simp [find_subnode_path, pythonEq, pythonEqList, bfs, childEntries,
      List.enum, List.enumFrom]
  · decide
  · decide

/-- C3 (counterexample) — on the code, `deep_equal` is Python `==`: the
number `1` (int) and the number `1.0` (float) are structurally equal, and the
Boolean `True` is structurally equal to the number `1`, contradicting the
claim that scalars are equal only when type and value coincide. -/
theorem deep_equal_scalar_counterexample :
    deep_equal (.num false 1) (.num true 1) = true
      ∧ deep_equal (.bool true) (.num false 1) = true := by
  constructor <;> decide

/-- C3 (amended) — scalar structural equality follows Python `==`: numbers
compare by rational value regardless of int/float representation, Booleans
compare against numbers as `0`/`1`, strings and `None` compare by value, and
scalars of genuinely different kinds (number/string, number/null,
bool/string, …) are never equal. -/
theorem deep_equal_scalar_spec :
    (∀ f1 f2 (q1 q2 : ℚ), deep_equal (.num f1 q1) (.num f2 q2) = (q1 == q2)) ∧
    (∀ b f (q : ℚ), deep_equal (.bool b) (.num f q) = (boolRat b == q)) ∧
    (∀ f (q : ℚ) b, deep_equal (.num f q) (.bool b) = (q == boolRat b)) ∧
    (∀ b1 b2, deep_equal (.bool b1) (.bool b2) = (b1 == b2)) ∧
    (∀ s1 s2, deep_equal (.str s1) (.str s2) = (s1 == s2)) ∧
    (deep_equal .null .null = true) ∧
    (∀ f (q : ℚ) s, deep_equal (.num f q) (.str s) = false
      ∧ deep_equal (.str s) (.num f q) = false
      ∧ deep_equal (.num f q) .null = false
      ∧ deep_equal .null (.num f q) = false) ∧
    (∀ b s, deep_equal (.bool b) (.str s) = false
      ∧ deep_equal (.str s) (.bool b) = false
      ∧ deep_equal (.bool b) .null = false
      ∧ deep_equal .null (.bool b) = false) := by
  refine ⟨?_, ?_, ?_, ?_, ?_, ?_, ?_, ?_⟩ <;>
    intros <;> simp [deep_equal, pythonEq]

/-- C4 (counterexample) — when both decoders fail, the error that reaches the
caller is the JSON one (the fallback `json.loads` raises last); the YAML
error message is the one suppressed, not the JSON one. -/
theorem yaml_or_json_load_counterexample :
    yaml_or_json_load (fun _ => .error "yaml message") (fun _ => .error "json message")
      "not valid" = .error "json message"
    ∧ ("json message" : String) ≠ "yaml message" := by
  constructor
  · rfl
  · decide

/-- C4 (amended) — `yaml_or_json_load` attempts YAML first and returns its
value on success without consulting JSON; on YAML failure it attempts JSON
and returns its value on success; when both fail the JSON error is the one
raised to the caller (the YAML error is suppressed). -/
theorem yaml_or_json_load_spec :
    (∀ yl jl : String → Except String Value, ∀ t v, yl t = .ok v →
      yaml_or_json_load yl jl t = .ok v) ∧
    (∀ yl jl : String → Except String Value, ∀ t e v,
      yl t = .error e → jl t = .ok v → yaml_or_json_load yl jl t = .ok v) ∧
    (∀ yl jl : String → Except String Value, ∀ t ey ej,
      yl t = .error ey → jl t = .error ej →
        yaml_or_json_load yl jl t = .error ej) := by
  refine ⟨?_, ?_, ?_⟩
  · intro yl jl t v h
    simp [yaml_or_json_load, h]
  · intro yl jl t e v hy hj
    simp [yaml_or_json_load, hy, hj]
  · intro yl jl t ey ej hy hj
    simp [yaml_or_json_load, hy, hj]

/-- Witness for the amended C4 at concrete decoders. -/
theorem yaml_or_json_load_spec_witness :
    yaml_or_json_load (fun _ => .error "y") (fun _ => .error "j") "t" = .error "j" :=
  yaml_or_json_load_spec.2.2 (fun _ => .error "y") (fun _ => .error "j") "t" "y" "j"
    rfl rfl

/-- C9 — when the selected source is `==`-equal to the parsed target, the
ExactPath rule fires with the empty path and the candidate is the identity
query `@` wrapped as a `json_query` call; NoCandidate is impossible here. -/
theorem synthesize_identity (s t : Value) (h : deep_equal s t = true) :
    synthesize s t
      = .ok (some ⟨"\x7b\x7b selected | json_query(\"@\") \x7d\x7d", .exactPath⟩) := by
  have hp : find_subnode_path s t = some [] := by
    simp [find_subnode_path, deep_equal] at h ⊢
    simp [h]
  have hq : json_query_expr (path_to_jmespath []) =
      "\x7b\x7b selected | json_query(\"@\") \x7d\x7d" := by decide
  simp [synthesize, hp, hq]

/-- Witness for C9: a concrete value as its own target. -/
theorem synthesize_identity_witness :
    synthesize (.map [("a", .num false 7)]) (.map [("a", .num false 7)])
      = .ok (some ⟨"\x7b\x7b selected | json_query(\"@\") \x7d\x7d", .exactPath⟩) :=
  synthesize_identity _ _ (by decide)

theorem infer_data_selected_eq
    (decode : String → Except String Value) (st : Session) (txt : String) :
    (infer_filter_from_edit decode st txt).1.data = st.data
      ∧ (infer_filter_from_edit decode st txt).1.selected = st.selected := by
  unfold infer_filter_from_edit
  repeat' split
  all_goals exact ⟨rfl, rfl⟩

/-- C10 — inference never changes the loaded document or the selected value:
the session transition of `infer_filter_from_edit` preserves both fields on
every control path (the Python code additionally deep-copies the selection
before searching, and the detection rules build only fresh lists). -/
theorem infer_preserves_doc_and_selection
    (decode : String → Except String Value) (st : Session) (txt : String) :
    (infer_filter_from_edit decode st txt).1.data = st.data
      ∧ (infer_filter_from_edit decode st txt).1.selected = st.selected :=
  infer_data_selected_eq decode st txt

/-- Scenario D of the specification as a plain evaluation: no rule applies to
source `[1,2,3]` and target `[1,2,3,4]`, so the pipeline yields no candidate. -/
theorem scenarioD_synthesize_none :
    synthesize (.seq [.num false 1, .num false 2, .num false 3])
      (.seq [.num false 1, .num false 2, .num false 3, .num false 4]) = .ok none := by
  have h1 : find_subnode_path (.seq [.num false 1, .num false 2, .num false 3])
      (.seq [.num false 1, .num false 2, .num false 3, .num false 4]) = none := by
    simp [find_subnode_path, pythonEq, pythonEqList, bfs, childEntries,
      List.enum, List.enumFrom]
  have h2 : detect_projection (.seq [.num false 1, .num false 2, .num false 3])
      (.seq [.num false 1, .num false 2, .num false 3, .num false 4]) = none := by decide
  have h3 : detect_filter_by_equality (.seq [.num false 1, .num false 2, .num false 3])
      (.seq [.num false 1, .num false 2, .num false 3, .num false 4]) = .ok none := by
    decide
  simp [synthesize, h1, h2, h3]

/-- C8 (counterexample) — the NoCandidate outcome does *not* leave the
previously pending candidate untouched: starting from a session with a
pending suggestion, running inference on Scenario D (`[1,2,3]` →
`[1,2,3,4]`, which no rule handles) clears `pending_suggestion` and
`pending_target_obj`. -/
theorem infer_state_counterexample :
    (infer_filter_from_edit
        (fun _ => .ok (.seq [.num false 1, .num false 2, .num false 3, .num false 4]))
        ⟨some (.seq [.num false 1, .num false 2, .num false 3]),
         some (.seq [.num false 1, .num false 2, .num false 3]),
         some "previous suggestion", some (.num false 0)⟩
        "[1, 2, 3, 4]").2 = .noCandidate
    ∧ (infer_filter_from_edit
        (fun _ => .ok (.seq [.num false 1, .num false 2, .num false 3, .num false 4]))
        ⟨some (.seq [.num false 1, .num false 2, .num false 3]),
         some (.seq [.num false 1, .num false 2, .num false 3]),
         some "previous suggestion", some (.num false 0)⟩
        "[1, 2, 3, 4]").1.pending = none
    ∧ (some "previous suggestion" : Option String) ≠ none := by
  have hs : synthesize (.seq [.num false 1, .num false 2, .num false 3])
      (.seq [.num false 1, .num false 2, .num false 3, .num false 4]) = .ok none :=
    scenarioD_synthesize_none
  have ht : pyStrip "[1, 2, 3, 4]" = "[1, 2, 3, 4]" := by decide
  refine ⟨?_, ?_, by simp⟩ <;>
    simp [infer_filter_from_edit, ht, hs]

/-- C8 (amended) — error and negative outcomes of the engine: a missing
selection, empty target text, a target parse error, a `TypeError` propagating
out of synthesis, and every verification call leave the session entirely
unchanged; the document and selection are unchanged on every path; but the
NoCandidate outcome clears the pending candidate and pending target
(discarding the previous one) rather than leaving them untouched. -/
theorem infer_state_spec (decode : String → Except String Value)
    (st : Session) (txt : String)
    (evalTo : String → Value → Option Value) :
    ((infer_filter_from_edit decode st txt).2 = .noSelection →
      (infer_filter_from_edit decode st txt).1 = st) ∧
    ((infer_filter_from_edit decode st txt).2 = .emptyText →
      (infer_filter_from_edit decode st txt).1 = st) ∧
    (∀ e, (infer_filter_from_edit decode st txt).2 = .parseError e →
      (infer_filter_from_edit decode st txt).1 = st) ∧
    ((infer_filter_from_edit decode st txt).2 = .noCandidate →
      (infer_filter_from_edit decode st txt).1
        = { st with pending := none, pendingTarget := none }) ∧
    (∀ e, (infer_filter_from_edit decode st txt).2 = .raised e →
      (infer_filter_from_edit decode st txt).1 = st) ∧
    ((infer_filter_from_edit decode st txt).1.data = st.data
      ∧ (infer_filter_from_edit decode st txt).1.selected = st.selected) ∧
    ((verify_pending evalTo st).1 = st) := by
  refine ⟨?_, ?_, ?_, ?_, ?_, infer_data_selected_eq decode st txt, ?_⟩
  · intro h
    unfold infer_filter_from_edit at h ⊢
    revert h
    repeat' split
    all_goals intro h
    all_goals first | rfl | (exact absurd h (by simp))
  · intro h
    unfold infer_filter_from_edit at h ⊢
    revert h
    repeat' split
    all_goals intro h
    all_goals first | rfl | (exact absurd h (by simp))
  · intro e h
    unfold infer_filter_from_edit at h ⊢
    revert h
    repeat' split
    all_goals intro h
    all_goals first | rfl | (exact absurd h (by simp))
  · intro h
    unfold infer_filter_from_edit at h ⊢
    revert h
    repeat' split
    all_goals intro h
    all_goals first | rfl | (exact absurd h (by simp))
  · intro e h
    unfold infer_filter_from_edit at h ⊢
    revert h
    repeat' split
    all_goals intro h
    all_goals first | rfl | (exact absurd h (by simp))
  · unfold verify_pending
    repeat' split
    all_goals rfl

/-- Witness for the amended C8: a concrete parse error leaves a concrete
session unchanged. -/
theorem infer_state_spec_witness :
    (infer_filter_from_edit (fun _ => .error "boom")
      ⟨none, some (.num false 1), some "cand", none⟩ "x").1
      = ⟨none, some (.num false 1), some "cand", none⟩ :=
  (infer_state_spec (fun _ => .error "boom")
    ⟨none, some (.num false 1), some "cand", none⟩ "x" (fun _ _ => none)).2.2.1
    "boom" (by decide)

/-! ## Sorting facts for the detection rules -/

theorem strLeB_total : ∀ as bs : List Char, strLeB as bs = true ∨ strLeB bs as = true := by
  intro as
  induction as with
  | nil => intro bs; left; rw [strLeB]
  | cons a as ih =>
    intro bs
    cases bs with
    | nil => right; rw [strLeB]
    | cons b bs =>
      rw [strLeB, strLeB]
      rcases Nat.lt_trichotomy a.toNat b.toNat with h | h | h
      · left; simp [h]
      · have h2 : ¬ a.toNat < b.toNat := by omega
        have h3 : ¬ b.toNat < a.toNat := by omega
        rcases ih bs with h4 | h4
        · left; simp [h2, h3, h4]
        · right; simp [h2, h3, h4]
      · right; simp [h]

theorem strLeB_trans : ∀ as bs cs : List Char,
    strLeB as bs = true → strLeB bs cs = true → strLeB as cs = true := by
  intro as
  induction as with
  | nil => intro bs cs _ _; rw [strLeB]
  | cons a as ih =>
    intro bs cs h1 h2
    cases bs with
    | nil => rw [strLeB] at h1; exact absurd h1 (by simp)
    | cons b bs =>
      cases cs with
      | nil => rw [strLeB] at h2; exact absurd h2 (by simp)
      | cons c cs =>
        rw [strLeB] at h1 h2 ⊢
        by_cases hab : a.toNat < b.toNat
        · by_cases hbc : b.toNat < c.toNat
          · simp [show a.toNat < c.toNat by omega]
          · rw [if_neg hbc] at h2
            by_cases hcb : c.toNat < b.toNat
            · rw [if_pos hcb] at h2; exact absurd h2 (by simp)
            · simp [show a.toNat < c.toNat by omega]
        · rw [if_neg hab] at h1
          by_cases hba : b.toNat < a.toNat
          · rw [if_pos hba] at h1; exact absurd h1 (by simp)
          · rw [if_neg hba] at h1
            by_cases hbc : b.toNat < c.toNat
            · simp [show a.toNat < c.toNat by omega]
            · rw [if_neg hbc] at h2
              by_cases hcb : c.toNat < b.toNat
              · rw [if_pos hcb] at h2; exact absurd h2 (by simp)
              · rw [if_neg hcb] at h2
                have hac : ¬ a.toNat < c.toNat := by omega
                have hca : ¬ c.toNat < a.toNat := by omega
                rw [if_neg hac, if_neg hca]
                exact ih bs cs h1 h2

theorem keyLe_total (a b : String) : keyLe a b = true ∨ keyLe b a = true :=
  strLeB_total a.data b.data

theorem keyLe_trans {a b c : String} (h1 : keyLe a b = true) (h2 : keyLe b c = true) :
    keyLe a c = true :=
  strLeB_trans a.data b.data c.data h1 h2

theorem insSorted_perm (x : String) (l : List String) :
    List.Perm (insSorted x l) (x :: l) := by
  induction l with
  | nil => rfl
  | cons y ys ih =>
    rw [insSorted]
    by_cases h : keyLe x y = true
    · rw [if_pos h]
    · rw [if_neg h]
      exact (ih.cons y).trans (List.Perm.swap x y ys)

theorem sortKeys_perm (l : List String) : List.Perm (sortKeys l) l := by
  induction l with
  | nil => rfl
  | cons x xs ih =>
    have : sortKeys (x :: xs) = insSorted x (sortKeys xs) := rfl
    rw [this]
    exact (insSorted_perm x (sortKeys xs)).trans (ih.cons x)

theorem insSorted_sorted (x : String) {l : List String}
    (h : l.Pairwise (fun a b => keyLe a b = true)) :
    (insSorted x l).Pairwise (fun a b => keyLe a b = true) := by
  induction l with
  | nil => simp [insSorted]
  | cons y ys ih =>
    rw [List.pairwise_cons] at h
    rw [insSorted]
    by_cases hxy : keyLe x y = true
    · rw [if_pos hxy]
      refine List.Pairwise.cons ?_ (List.Pairwise.cons h.1 h.2)
      intro z hz
      rcases List.mem_cons.mp hz with rfl | hz2
      · exact hxy
      · exact keyLe_trans hxy (h.1 z hz2)
    · rw [if_neg hxy]
      refine List.Pairwise.cons ?_ (ih h.2)
      intro z hz
      have hz3 := (insSorted_perm x ys).mem_iff.mp hz
      rcases List.mem_cons.mp hz3 with rfl | hz4
      · rcases keyLe_total z y with h5 | h5
        · exact absurd h5 hxy
        · exact h5
      · exact h.1 z hz4

theorem sortKeys_sorted (l : List String) :
    (sortKeys l).Pairwise (fun a b => keyLe a b = true) := by
  induction l with
  | nil => simp [sortKeys]
  | cons x xs ih => exact insSorted_sorted x ih

theorem commonKeys_mem : ∀ (ms : List (List (String × Value))) (acc common : List String),
    commonKeys acc ms = some common →
    ∀ k, k ∈ common ↔ (k ∈ acc ∧ ∀ m ∈ ms, (lookupKey k m).isSome = true) := by
  intro ms
  induction ms with
  | nil =>
    intro acc common h k
    rw [commonKeys] at h
    injection h with h
    simp [← h]
  | cons m rest ih =>
    intro acc common h k
    rw [commonKeys] at h
    by_cases he : (acc.filter (fun k => (lookupKey k m).isSome)).isEmpty
    · rw [if_pos he] at h; exact absurd h (by simp)
    · rw [if_neg he] at h
      rw [ih _ _ h k, List.mem_filter]
      constructor
      · rintro ⟨⟨h1, h2⟩, h3⟩
        exact ⟨h1, fun m2 hm2 => by
          rcases List.mem_cons.mp hm2 with rfl | hm3
          · exact h2
          · exact h3 m2 hm3⟩
      · rintro ⟨h1, h2⟩
        exact ⟨⟨h1, h2 m (List.mem_cons_self ..)⟩,
          fun m2 hm2 => h2 m2 (List.mem_cons_of_mem _ hm2)⟩

theorem keyUnion_mem (ls : List (List String)) (k : String) :
    k ∈ keyUnion ls ↔ ∃ l ∈ ls, k ∈ l := by
  have haux : ∀ (ls : List (List String)) (acc : List String),
      k ∈ ls.foldl (fun acc ks => acc ++ ks.filter (fun k2 => !acc.contains k2)) acc
        ↔ (k ∈ acc ∨ ∃ l ∈ ls, k ∈ l) := by
    intro ls
    induction ls with
    | nil => intro acc; simp
    | cons l rest ih =>
      intro acc
      rw [List.foldl_cons, ih]
      constructor
      · rintro (h | h)
        · rcases List.mem_append.mp h with h2 | h2
          · exact Or.inl h2
          · exact Or.inr ⟨l, List.mem_cons_self .., (List.mem_filter.mp h2).1⟩
        · rcases h with ⟨l2, hl2, hk⟩
          exact Or.inr ⟨l2, List.mem_cons_of_mem _ hl2, hk⟩
      · rintro (h | ⟨l2, hl2, hk⟩)
        · exact Or.inl (List.mem_append.mpr (Or.inl h))
        · rcases List.mem_cons.mp hl2 with rfl | hl3
          · by_cases hin : k ∈ acc
            · exact Or.inl (List.mem_append.mpr (Or.inl hin))
            · left
              refine List.mem_append.mpr (Or.inr (List.mem_filter.mpr ⟨hk, ?_⟩))
              simp only [Bool.not_eq_true']
              by_cases hc : acc.contains k = true
              · exact absurd (by simpa using hc) hin
              · simpa using hc
          · exact Or.inr ⟨l2, hl3, hk⟩
  rw [keyUnion, haux]
  simp

theorem targetUniqueVal_spec (tgt : List Value) (k : String) (v : Value) :
    targetUniqueVal tgt k = .ok (some v) ↔
      (∀ d ∈ tgt, hashableV (dictGetV d k) = true)
      ∧ ∃ d0 rest, tgt = d0 :: rest ∧ v = dictGetV d0 k
        ∧ ∀ d ∈ rest, pythonEq (dictGetV d k) v = true := by
  unfold targetUniqueVal
  by_cases hh : tgt.all (fun d => hashableV (dictGetV d k)) = true
  · rw [if_pos hh]
    have hhall := List.all_eq_true.mp hh
    cases tgt with
    | nil =>
      dsimp only
      constructor
      · intro h
        injection h with h2
        exact absurd h2 (by simp)
      · rintro ⟨_, d0, rest, heq, _⟩
        exact absurd heq (by simp)
    | cons d0 rest =>
      dsimp only
      by_cases hall : rest.all (fun d => pythonEq (dictGetV d k) (dictGetV d0 k)) = true
      · rw [if_pos hall]
        constructor
        · intro h
          injection h with h2
          injection h2 with h3
          exact ⟨hhall, d0, rest, rfl, h3.symm, by
            intro d hd
            rw [← h3]
            exact (List.all_eq_true.mp hall) d hd⟩
        · rintro ⟨_, d1, rest1, heq, hv, _⟩
          injection heq with h1 h2
          rw [h1, hv]
      · rw [if_neg hall]
        constructor
        · intro h
          injection h with h2
          exact absurd h2 (by simp)
        · rintro ⟨_, d1, rest1, heq, hv, hall2⟩
          injection heq with h1 h2
          subst h1
          subst h2
          exfalso
          apply hall
          rw [List.all_eq_true]
          intro d hd
          rw [← hv]
          exact hall2 d hd
  · rw [if_neg hh]
    constructor
    · intro h
      exact absurd h (by simp)
    · rintro ⟨hcl, _⟩
      exfalso
      apply hh
      rw [List.all_eq_true]
      exact hcl

theorem targetUniqueVal_error (tgt : List Value) (k : String) :
    targetUniqueVal tgt k = .error "unhashable type"
      ↔ ∃ d ∈ tgt, hashableV (dictGetV d k) = false := by
  unfold targetUniqueVal
  by_cases hh : tgt.all (fun d => hashableV (dictGetV d k)) = true
  · rw [if_pos hh]
    constructor
    · intro h
      exact absurd h (by simp)
    · rintro ⟨d, hd, hf⟩
      have := List.all_eq_true.mp hh d hd
      rw [hf] at this
      exact absurd this (by simp)
  · rw [if_neg hh]
    constructor
    · intro _
      by_contra hne
      push_neg at hne
      apply hh
      rw [List.all_eq_true]
      intro d hd
      cases hb : hashableV (dictGetV d k) with
      | false => exact absurd hb (hne d hd)
      | true => rfl
    · intro _
      rfl

/-- C5 — the Projection rule applies only to a pair of Sequences with
non-empty all-Mapping source; it scans the keys common to all source elements
in ascending lexicographic order and synthesizes `[].<key>` for the first key
whose projected sequence (missing key → Null via `dict.get`) equals the
target, failing when the common key set is empty or no key matches.  The
final conjuncts check Scenario A of the specification, including a passing
verification of the projection query. -/
theorem detect_projection_spec :
    (∀ s t e, detect_projection s t = some e →
      ∃ src tgt dicts, s = .seq src ∧ t = .seq tgt ∧ src ≠ []
        ∧ allDicts src = some dicts) ∧
    (∀ (src tgt : List Value) d0 drest common,
      src ≠ [] →
      allDicts src = some (d0 :: drest) →
      commonKeys (d0.map Prod.fst) drest = some common →
      detect_projection (.seq src) (.seq tgt)
        = ((sortKeys common).find? (fun key =>
            pythonEq (.seq ((d0 :: drest).map (fun it => dictGet it key)))
              (.seq tgt))).map (fun key => json_query_expr (projJq key))
        ∧ (∀ k, k ∈ common ↔ k ∈ d0.map Prod.fst
            ∧ ∀ m ∈ drest, (lookupKey k m).isSome = true)
        ∧ (sortKeys common).Pairwise (fun a b => keyLe a b = true)
        ∧ List.Perm (sortKeys common) common) ∧
    (∀ (src tgt : List Value) d0 drest,
      src ≠ [] →
      allDicts src = some (d0 :: drest) →
      commonKeys (d0.map Prod.fst) drest = none →
      detect_projection (.seq src) (.seq tgt) = none) ∧
    (detect_projection
        (.seq [.map [("name", .str "a"), ("role", .str "admin")],
               .map [("name", .str "b"), ("role", .str "user")]])
        (.seq [.str "a", .str "b"])
      = some "\x7b\x7b selected | json_query(\"[].name\") \x7d\x7d") ∧
    (synthesize
        (.seq [.map [("name", .str "a"), ("role", .str "admin")],
               .map [("name", .str "b"), ("role", .str "user")]])
        (.seq [.str "a", .str "b"])
      = .ok (some ⟨"\x7b\x7b selected | json_query(\"[].name\") \x7d\x7d",
          .projection⟩)) ∧
    (verify_query (.projection "name")
        (.seq [.map [("name", .str "a"), ("role", .str "admin")],
               .map [("name", .str "b"), ("role", .str "user")]])
        (.seq [.str "a", .str "b"]) = true) := by
  refine ⟨?_, ?_, ?_, by decide, ?_, by decide⟩
  · intro s t e h
    rw [detect_projection.eq_def] at h
    split at h
    · rename_i src tgt
      split at h
      · exact absurd h (by simp)
      · rename_i hemp
        split at h
        · exact absurd h (by simp)
        · rename_i dicts hm
          refine ⟨src, tgt, dicts, rfl, rfl, ?_, hm⟩
          intro hnil
          rw [hnil] at hemp
          exact hemp rfl
    · exact absurd h (by simp)
  · intro src tgt d0 drest common hne hm hc
    have hemp : src.isEmpty = false := by
      cases src with
      | nil => exact absurd rfl hne
      | cons a b => rfl
    refine ⟨?_, commonKeys_mem _ _ _ hc, sortKeys_sorted _, sortKeys_perm _⟩
    rw [detect_projection.eq_def]
    simp only [hemp, Bool.false_eq_true, if_false, hm, hc]
    cases hf : (sortKeys common).find? (fun key =>
        pythonEq (.seq ((d0 :: drest).map (fun it => dictGet it key))) (.seq tgt)) with
    | none => simp [hf]
    | some key => simp [hf]
  · intro src tgt d0 drest hne hm hc
    have hemp : src.isEmpty = false := by
      cases src with
      | nil => exact absurd rfl hne
      | cons a b => rfl
    rw [detect_projection.eq_def]
    simp [hemp, hm, hc]
  · have h1 : find_subnode_path
        (.seq [.map [("name", .str "a"), ("role", .str "admin")],
               .map [("name", .str "b"), ("role", .str "user")]])
        (.seq [.str "a", .str "b"]) = none := by
      simp [find_subnode_path, pythonEq, pythonEqList, pythonEqEntries, lookupKey,
        bfs, childEntries, List.enum, List.enumFrom]
    have h2 : detect_projection
        (.seq [.map [("name", .str "a"), ("role", .str "admin")],
               .map [("name", .str "b"), ("role", .str "user")]])
        (.seq [.str "a", .str "b"])
      = some "\x7b\x7b selected | json_query(\"[].name\") \x7d\x7d" := by decide
    simp [synthesize, h1, h2]

/-- C6 (counterexample) — for source `[{"a": {"x": 1}}, {"a": {"x": 2}}]` and
target `[{"a": {"x": 2}}]` the rule's applicability conditions hold and key
`"a"` has exactly one target value, `{"x": 2}`, whose equality filter
reproduces the target exactly — yet the program never returns that candidate:
building the value set `{d.get(k) for d in target}` raises `TypeError` on the
unhashable dict value, so the rule errors instead of proceeding as the claim
describes. -/
theorem detect_filter_by_equality_counterexample :
    detect_filter_by_equality
        (.seq [.map [("a", .map [("x", .num false 1)])],
               .map [("a", .map [("x", .num false 2)])]])
        (.seq [.map [("a", .map [("x", .num false 2)])]])
      = .error "unhashable type"
    ∧ (∀ d ∈ ([.map [("a", .map [("x", .num false 2)])]] : List Value),
        pythonEq (dictGetV d "a") (.map [("x", .num false 2)]) = true)
    ∧ pythonEq
        (.seq (([.map [("a", .map [("x", .num false 1)])],
                 .map [("a", .map [("x", .num false 2)])]] : List Value).filter
          (fun d => pythonEq (dictGetV d "a") (.map [("x", .num false 2)]))))
        (.seq [.map [("a", .map [("x", .num false 2)])]]) = true
    ∧ (∀ o : Option String,
        (Except.error "unhashable type" : Except String (Option String)) ≠ .ok o) :=
  ⟨by decide, by decide, by decide, fun o h => nomatch h⟩

/-- C6 (amended) — the EqualityFilter rule scans the union of source keys in
ascending lexicographic order; for each key it first builds the set of the
target values of that key, and a key whose target holds any unhashable
`list`/`dict` value makes the rule raise `TypeError`, aborting the scan; a key
whose target holds exactly one distinct value `v` (all `==`-equal to the first
element's value) filters the source in order without deduplication and
succeeds when the filtered list equals the target exactly, yielding
`[?<key>==<literal>]`; any other key is skipped, and an exhausted scan returns
`None`.  The final conjuncts check Scenario B: the lexicographic order puts
`"id"` before `"status"` and the candidate is the equality filter on
`id==2`. -/
theorem detect_filter_by_equality_spec :
    (∀ s t, detect_filter_by_equality s t ≠ .ok none →
      ∃ src tgt, s = .seq src ∧ t = .seq tgt ∧ src ≠ [] ∧ tgt ≠ []
        ∧ (src ++ tgt).all (fun x => (asDict x).isSome) = true) ∧
    (∀ (src tgt : List Value),
      src ≠ [] → tgt ≠ [] →
      (src ++ tgt).all (fun x => (asDict x).isSome) = true →
      detect_filter_by_equality (.seq src) (.seq tgt)
        = eqFilterScan src tgt (sortKeys (keyUnion (src.map valueKeys)))
        ∧ (∀ k, k ∈ keyUnion (src.map valueKeys) ↔ ∃ d ∈ src, k ∈ valueKeys d)
        ∧ (sortKeys (keyUnion (src.map valueKeys))).Pairwise
            (fun a b => keyLe a b = true)) ∧
    ((∀ src tgt : List Value, eqFilterScan src tgt [] = .ok none) ∧
     (∀ (src tgt : List Value) k ks,
        (∃ d ∈ tgt, hashableV (dictGetV d k) = false) →
        eqFilterScan src tgt (k :: ks) = .error "unhashable type") ∧
     (∀ (src tgt : List Value) k ks v,
        targetUniqueVal tgt k = .ok (some v) →
        pythonEq (.seq (src.filter (fun d => pythonEq (dictGetV d k) v)))
          (.seq tgt) = true →
        eqFilterScan src tgt (k :: ks)
          = .ok (some (json_query_expr (eqFilterJq k v)))) ∧
     (∀ (src tgt : List Value) k ks v,
        targetUniqueVal tgt k = .ok (some v) →
        pythonEq (.seq (src.filter (fun d => pythonEq (dictGetV d k) v)))
          (.seq tgt) = false →
        eqFilterScan src tgt (k :: ks) = eqFilterScan src tgt ks) ∧
     (∀ (src tgt : List Value) k ks,
        targetUniqueVal tgt k = .ok none →
        eqFilterScan src tgt (k :: ks) = eqFilterScan src tgt ks)) ∧
    (∀ tgt k v, targetUniqueVal tgt k = .ok (some v) ↔
      (∀ d ∈ tgt, hashableV (dictGetV d k) = true)
      ∧ ∃ d0 rest, tgt = d0 :: rest ∧ v = dictGetV d0 k
        ∧ ∀ d ∈ rest, pythonEq (dictGetV d k) v = true) ∧
    (∀ tgt k, targetUniqueVal tgt k = .error "unhashable type"
      ↔ ∃ d ∈ tgt, hashableV (dictGetV d k) = false) ∧
    (keyLe "id" "status" = true) ∧
    (detect_filter_by_equality
        (.seq [.map [("id", .num false 1), ("status", .str "ok")],
               .map [("id", .num false 2), ("status", .str "down")]])
        (.seq [.map [("id", .num false 2), ("status", .str "down")]])
      = .ok (some "\x7b\x7b selected | json_query(\"[?id==`2`]\") \x7d\x7d")) ∧
    (synthesize
        (.seq [.map [("id", .num false 1), ("status", .str "ok")],
               .map [("id", .num false 2), ("status", .str "down")]])
        (.seq [.map [("id", .num false 2), ("status", .str "down")]])
      = .ok (some ⟨"\x7b\x7b selected | json_query(\"[?id==`2`]\") \x7d\x7d",
          .equalityFilter⟩)) := by
  refine ⟨?_, ?_, ⟨fun _ _ => rfl, ?_, ?_, ?_, ?_⟩,
    targetUniqueVal_spec, targetUniqueVal_error, by decide, by decide, ?_⟩
  · intro s t h
    rw [detect_filter_by_equality.eq_def] at h
    split at h
    · rename_i src tgt
      split at h
      · exact absurd rfl h
      · rename_i hne
        rw [Bool.or_eq_true] at hne
        push_neg at hne
        split at h
        · rename_i hall
          refine ⟨src, tgt, rfl, rfl, ?_, ?_, hall⟩
          · intro hnil
            rw [hnil] at hne
            exact hne.1 rfl
          · intro hnil
            rw [hnil] at hne
            exact hne.2 rfl
        · exact absurd rfl h
    · exact absurd rfl h
  · intro src tgt hs ht hall
    have hes : src.isEmpty = false := by
      cases src with
      | nil => exact absurd rfl hs
      | cons a b => rfl
    have het : tgt.isEmpty = false := by
      cases tgt with
      | nil => exact absurd rfl ht
      | cons a b => rfl
    refine ⟨?_, fun k => by
        rw [keyUnion_mem]
        constructor
        · rintro ⟨l, hl, hk⟩
          rcases List.mem_map.mp hl with ⟨d, hd, rfl⟩
          exact ⟨d, hd, hk⟩
        · rintro ⟨d, hd, hk⟩
          exact ⟨valueKeys d, List.mem_map.mpr ⟨d, hd, rfl⟩, hk⟩,
      sortKeys_sorted _⟩
    rw [detect_filter_by_equality.eq_def]
    simp only [hes, het, Bool.or_self, Bool.false_eq_true, if_false, hall, if_true]
  · intro src tgt k ks h
    rw [eqFilterScan, (targetUniqueVal_error tgt k).mpr h]
  · intro src tgt k ks v h1 h2
    rw [eqFilterScan, h1]
    dsimp only
    rw [if_pos h2]
  · intro src tgt k ks v h1 h2
    rw [eqFilterScan, h1]
    dsimp only
    rw [if_neg (by rw [h2]; simp)]
  · intro src tgt k ks h1
    rw [eqFilterScan, h1]
  · have h1 : find_subnode_path
        (.seq [.map [("id", .num false 1), ("status", .str "ok")],
               .map [("id", .num false 2), ("status", .str "down")]])
        (.seq [.map [("id", .num false 2), ("status", .str "down")]]) = none := by
      simp [find_subnode_path, pythonEq, pythonEqList, pythonEqEntries, lookupKey,
        bfs, childEntries, List.enum, List.enumFrom, boolRat]
    have h2 : detect_projection
        (.seq [.map [("id", .num false 1), ("status", .str "ok")],
               .map [("id", .num false 2), ("status", .str "down")]])
        (.seq [.map [("id", .num false 2), ("status", .str "down")]]) = none := by decide
    have h3 : detect_filter_by_equality
        (.seq [.map [("id", .num false 1), ("status", .str "ok")],
               .map [("id", .num false 2), ("status", .str "down")]])
        (.seq [.map [("id", .num false 2), ("status", .str "down")]])
      = .ok (some "\x7b\x7b selected | json_query(\"[?id==`2`]\") \x7d\x7d") := by
      decide
    simp [synthesize, h1, h2, h3]

/-- Witness for C5: Scenario A satisfies the Projection applicability
conditions. -/
theorem detect_projection_spec_witness :
    ∃ src tgt dicts,
      Value.seq [.map [("name", .str "a"), ("role", .str "admin")],
                 .map [("name", .str "b"), ("role", .str "user")]] = .seq src
      ∧ Value.seq [.str "a", .str "b"] = .seq tgt
      ∧ src ≠ [] ∧ allDicts src = some dicts :=
  detect_projection_spec.1 _ _
    "\x7b\x7b selected | json_query(\"[].name\") \x7d\x7d" (by decide)

/-- Witness for the amended C6: Scenario B satisfies the EqualityFilter
applicability conditions. -/
theorem detect_filter_by_equality_spec_witness :
    ∃ src tgt,
      Value.seq [.map [("id", .num false 1), ("status", .str "ok")],
                 .map [("id", .num false 2), ("status", .str "down")]] = .seq src
      ∧ Value.seq [.map [("id", .num false 2), ("status", .str "down")]] = .seq tgt
      ∧ src ≠ [] ∧ tgt ≠ []
      ∧ (src ++ tgt).all (fun x => (asDict x).isSome) = true :=
  detect_filter_by_equality_spec.1 _ _ (by decide)

/-! ## A model of the external decoder on JSON text (for the round-trip claim)

`parse` is `yaml_or_json_load`, whose decoders (ruamel.yaml / `json`) are
external libraries; on JSON-formatted text both return the decoded JSON
value.  The recursive-descent reader below is therefore modelled from the
spec (§4.4 Output Formatter, "best-effort parse of edited text back into a
value") for exactly the JSON grammar the formatter emits: literals, decimal
integers and decimal fractions (exponent forms never occur in the output),
strings with the standard escapes, and bracketed arrays and objects with
arbitrary interleaved whitespace.  Numbers carry the int/float distinction of
`json.loads` (a fraction makes a float). -/

theorem charOfNat_toNat {n : ℕ} (h : n < 55296) : (Char.ofNat n).toNat = n := by
  have hv : Nat.isValidChar n := Or.inl (by omega)
  rw [Char.ofNat, dif_pos hv]
  rfl

/-- JSON whitespace. -/
def isWsC (c : Char) : Bool := c = ' ' || c = '\n' || c = '\t' || c = '\r'

/-- ASCII decimal digit. -/
def isDigitC (c : Char) : Bool := 48 ≤ c.toNat && c.toNat ≤ 57

/-- Skip leading JSON whitespace. -/
def skipWs : List Char → List Char
  | [] => []
  | c :: rest => if isWsC c then skipWs rest else c :: rest

theorem skipWs_append {ws : List Char} (h : ∀ c ∈ ws, isWsC c = true)
    (l : List Char) : skipWs (ws ++ l) = skipWs l := by
  induction ws with
  | nil => simp
  | cons c cs ih =>
    rw [List.cons_append, skipWs, if_pos (h c (List.mem_cons_self ..))]
    exact ih (fun d hd => h d (List.mem_cons_of_mem _ hd))

theorem skipWs_not_ws : ∀ {l : List Char}, (∀ c, l.head? = some c → isWsC c = false) →
    skipWs l = l := by
  intro l h
  cases l with
  | nil => rfl
  | cons c rest =>
    rw [skipWs, if_neg]
    rw [h c rfl]
    simp

/-- Value of a hexadecimal digit character. -/
def hexVal (c : Char) : Option ℕ :=
  if 48 ≤ c.toNat ∧ c.toNat ≤ 57 then some (c.toNat - 48)
  else if 97 ≤ c.toNat ∧ c.toNat ≤ 102 then some (c.toNat - 87)
  else if 65 ≤ c.toNat ∧ c.toNat ≤ 70 then some (c.toNat - 55)
  else none

theorem hexVal_hexDigit {m : ℕ} (h : m < 16) : hexVal (hexDigit m) = some m := by
  rw [hexDigit]
  by_cases h10 : m < 10
  · rw [if_pos h10, hexVal, charOfNat_toNat (by omega), if_pos (by omega)]
    simp
  · rw [if_neg h10, hexVal, charOfNat_toNat (by omega)]
    rw [if_neg (by omega), if_pos (by omega)]
    simp only [Option.some_inj]
    omega

/-- One unit of a JSON string body: `none` on malformed input,
`some (none, rest)` at the closing quote, `some (some ch, rest)` for one
decoded character, decoding the standard JSON escapes (`\uXXXX` including
surrogate pairs). -/
def scanUnit (l : List Char) : Option (Option Char × List Char) :=
  match l with
  | [] => none
  | c :: rest =>
    if c = '"' then some (none, rest)
    else if c = '\\' then
      match rest with
      | [] => none
      | e :: rest2 =>
        if e = '"' || e = '\\' || e = '/' then some (some e, rest2)
        else if e = 'n' then some (some '\n', rest2)
        else if e = 't' then some (some '\t', rest2)
        else if e = 'r' then some (some '\r', rest2)
        else if e = 'b' then some (some (Char.ofNat 8), rest2)
        else if e = 'f' then some (some (Char.ofNat 12), rest2)
        else if e = 'u' then
          match rest2 with
          | h1 :: h2 :: h3 :: h4 :: rest3 =>
            (hexVal h1).bind fun a =>
            (hexVal h2).bind fun b =>
            (hexVal h3).bind fun c2 =>
            (hexVal h4).bind fun d =>
            if 55296 ≤ a * 4096 + b * 256 + c2 * 16 + d
                ∧ a * 4096 + b * 256 + c2 * 16 + d < 56320 then
              match rest3 with
              | s1 :: s2 :: g1 :: g2 :: g3 :: g4 :: rest4 =>
                if s1 = '\\' && s2 = 'u' then
                  (hexVal g1).bind fun a2 =>
                  (hexVal g2).bind fun b2 =>
                  (hexVal g3).bind fun c3 =>
                  (hexVal g4).bind fun d2 =>
                  if 56320 ≤ a2 * 4096 + b2 * 256 + c3 * 16 + d2
                      ∧ a2 * 4096 + b2 * 256 + c3 * 16 + d2 < 57344 then
                    some (some (Char.ofNat (65536
                        + (a * 4096 + b * 256 + c2 * 16 + d - 55296) * 1024
                        + (a2 * 4096 + b2 * 256 + c3 * 16 + d2 - 56320))), rest4)
                  else none
                else none
              | _ => none
            else some (some (Char.ofNat (a * 4096 + b * 256 + c2 * 16 + d)), rest3)
          | _ => none
        else none
    else some (some c, rest)

/-- String-body reader: characters up to the closing quote, one `scanUnit`
per character (the fuel is spent one unit per decoded character; callers pass
the input length, which always suffices). -/
def parseStringBody : ℕ → List Char → Option (List Char × List Char)
  | 0, _ => none
  | fuel + 1, l =>
    match scanUnit l with
    | none => none
    | some (none, rest) => some ([], rest)
    | some (some ch, rest) =>
      (parseStringBody fuel rest).map (fun p => (ch :: p.1, p.2))

/-- Read a run of decimal digits, accumulating value and digit count. -/
def parseDigits : List Char → ℕ → ℕ → ℕ × ℕ × List Char
  | [], acc, cnt => (acc, cnt, [])
  | c :: rest, acc, cnt =>
    if isDigitC c then parseDigits rest (acc * 10 + (c.toNat - 48)) (cnt + 1)
    else (acc, cnt, c :: rest)

/-- Negate the rational of a number value. -/
def negNum : Value → Value
  | .num f q => .num f (Rat.neg q)
  | v => v

/-- Unsigned JSON number: integer part, then an optional fraction; a fraction
makes a float, as in `json.loads`.  Exponent forms are not read: the
formatter never writes them for decimal-exact values. -/
def parseNumAbs (l : List Char) : Option (Value × List Char) :=
  match parseDigits l 0 0 with
  | (ip, cnt, r) =>
    if cnt = 0 then none
    else
      match r with
      | c :: r2 =>
        if c = '.' then
          match parseDigits r2 0 0 with
          | (fp, k, r3) =>
            if k = 0 then none
            else some (.num true (mkRat (ip * 10 ^ k + fp) (10 ^ k)), r3)
        else some (.num false (mkRat ip 1), c :: r2)
      | [] => some (.num false (mkRat ip 1), [])

/-- Signed JSON number. -/
def parseNumber : List Char → Option (Value × List Char)
  | [] => none
  | c :: rest =>
    if c = '-' then (parseNumAbs rest).map (fun p => (negNum p.1, p.2))
    else parseNumAbs (c :: rest)

mutual
/-- JSON value reader (fuel-indexed; the head character must already be
non-whitespace, callers skip whitespace first). -/
def parseVal : ℕ → List Char → Option (Value × List Char)
  | 0, _ => none
  | fuel + 1, l =>
    match l with
    | [] => none
    | c :: rest =>
      if c = 'n' then
        match rest with
        | 'u' :: 'l' :: 'l' :: r => some (.null, r)
        | _ => none
      else if c = 't' then
        match rest with
        | 'r' :: 'u' :: 'e' :: r => some (.bool true, r)
        | _ => none
      else if c = 'f' then
        match rest with
        | 'a' :: 'l' :: 's' :: 'e' :: r => some (.bool false, r)
        | _ => none
      else if c = '"' then
        (parseStringBody (rest.length + 1) rest).map (fun p => (.str ⟨p.1⟩, p.2))
      else if c = '[' then
        match skipWs rest with
        | [] => none
        | d :: r =>
          if d = ']' then some (.seq [], r)
          else (parseElems fuel (d :: r)).map (fun p => (.seq p.1, p.2))
      else if c = Char.ofNat 123 then
        match skipWs rest with
        | [] => none
        | d :: r =>
          if d = Char.ofNat 125 then some (.map [], r)
          else (parseMembers fuel (d :: r)).map (fun p => (.map p.1, p.2))
      else parseNumber (c :: rest)

/-- Comma-separated array elements up to the closing bracket (at least one;
the head character must be non-whitespace). -/
def parseElems : ℕ → List Char → Option (List Value × List Char)
  | 0, _ => none
  | fuel + 1, l =>
    (parseVal fuel l).bind fun p =>
      match skipWs p.2 with
      | [] => none
      | d :: r2 =>
        if d = ']' then some ([p.1], r2)
        else if d = ',' then
          (parseElems fuel (skipWs r2)).map (fun q => (p.1 :: q.1, q.2))
        else none

/-- Comma-separated object members up to the closing brace (at least one;
the head character must be non-whitespace). -/
def parseMembers : ℕ → List Char → Option (List (String × Value) × List Char)
  | 0, _ => none
  | fuel + 1, l =>
    match l with
    | '"' :: rest =>
      (parseStringBody (rest.length + 1) rest).bind fun kp =>
        match skipWs kp.2 with
        | [] => none
        | d0 :: r2 =>
          if d0 = ':' then
            (parseVal fuel (skipWs r2)).bind fun vp =>
              match skipWs vp.2 with
              | [] => none
              | d :: r3 =>
                if d = Char.ofNat 125 then some ([(⟨kp.1⟩, vp.1)], r3)
                else if d = ',' then
                  (parseMembers fuel (skipWs r3)).map
                    (fun q => ((⟨kp.1⟩, vp.1) :: q.1, q.2))
                else none
          else none
    | _ => none
end

/-- Whole-document JSON read: the modelled behaviour of the decoders of
`yaml_or_json_load` on the JSON text emitted by `pretty_json`. -/
def parseDoc (s : String) : Except String Value :=
  match parseVal (2 * (s.data.length + 1)) (skipWs s.data) with
  | some p => if (skipWs p.2).isEmpty then .ok p.1 else .error "Extra data"
  | none => .error "Expecting value"

/-- Value of a digit run, most significant first, on top of `a`. -/
def digitsVal (a : ℕ) (l : List Char) : ℕ :=
  l.foldl (fun a c => a * 10 + (c.toNat - 48)) a

theorem digitsVal_append (a : ℕ) (l1 l2 : List Char) :
    digitsVal a (l1 ++ l2) = digitsVal (digitsVal a l1) l2 :=
  List.foldl_append ..

theorem digitChar_toNat {n : ℕ} (h : n < 10) : (digitChar n).toNat = 48 + n := by
  rw [digitChar]
  exact charOfNat_toNat (by omega)

theorem isDigitC_digitChar {n : ℕ} (h : n < 10) : isDigitC (digitChar n) = true := by
  simp only [isDigitC, digitChar_toNat h]
  simp
  omega

theorem natDigitsAux_digits :
    ∀ fuel n, ∀ c ∈ natDigitsAux fuel n, isDigitC c = true := by
  intro fuel
  induction fuel with
  | zero => intro n c hc; simp [natDigitsAux] at hc
  | succ f ih =>
    intro n c hc
    rw [natDigitsAux] at hc
    by_cases h0 : n = 0
    · rw [if_pos h0] at hc; simp at hc
    · rw [if_neg h0] at hc
      rcases List.mem_append.mp hc with h | h
      · exact ih _ c h
      · simp only [List.mem_singleton] at h
        subst h
        exact isDigitC_digitChar (Nat.mod_lt _ (by omega))

theorem natDigitsAux_val :
    ∀ fuel n a, n < fuel →
      digitsVal a (natDigitsAux fuel n) = a * 10 ^ (natDigitsAux fuel n).length + n := by
  intro fuel
  induction fuel with
  | zero => intro n a h; omega
  | succ f ih =>
    intro n a h
    rw [natDigitsAux]
    by_cases h0 : n = 0
    · subst h0; rw [if_pos rfl]; simp [digitsVal]
    · rw [if_neg h0]
      have hpos : 0 < n := Nat.pos_of_ne_zero h0
      have hlt : n / 10 < f := by
        have := Nat.div_lt_self hpos (by norm_num : 1 < 10)
        omega
      rw [digitsVal_append, List.length_append]
      have ihv := ih (n / 10) a hlt
      rw [ihv]
      have hd : digitsVal (a * 10 ^ (natDigitsAux f (n / 10)).length + n / 10)
          [digitChar (n % 10)]
          = (a * 10 ^ (natDigitsAux f (n / 10)).length + n / 10) * 10 + n % 10 := by
        simp [digitsVal, digitChar_toNat (Nat.mod_lt n (by norm_num))]
      rw [hd]
      have hmul : (a * 10 ^ (natDigitsAux f (n / 10)).length + n / 10) * 10
          = a * (10 ^ (natDigitsAux f (n / 10)).length * 10) + (n / 10) * 10 := by ring
      rw [hmul]
      simp only [List.length_singleton, pow_succ]
      omega

theorem natDigitsAux_ne_nil {fuel n : ℕ} (h1 : n ≠ 0) (h2 : n < fuel) :
    natDigitsAux fuel n ≠ [] := by
  cases fuel with
  | zero => omega
  | succ f =>
    rw [natDigitsAux, if_neg h1]
    simp

theorem natDigitsAux_len_le :
    ∀ fuel n k, n < 10 ^ k → (natDigitsAux fuel n).length ≤ k := by
  intro fuel
  induction fuel with
  | zero => intro n k _; simp [natDigitsAux]
  | succ f ih =>
    intro n k h
    rw [natDigitsAux]
    by_cases h0 : n = 0
    · rw [if_pos h0]; simp
    · rw [if_neg h0]
      have hk : k ≠ 0 := by
        rintro rfl
        simp at h
        omega
      have hdiv : n / 10 < 10 ^ (k - 1) := by
        rw [Nat.div_lt_iff_lt_mul (by norm_num : 0 < 10)]
        calc n < 10 ^ k := h
        _ = 10 ^ (k - 1) * 10 := by
            rw [← pow_succ]
            congr 1
            omega
      have := ih (n / 10) (k - 1) hdiv
      simp only [List.length_append, List.length_singleton]
      omega

theorem natToString_digits {n : ℕ} :
    ∀ c ∈ (natToString n).data, isDigitC c = true := by
  intro c hc
  rw [natToString] at hc
  by_cases h0 : n = 0
  · rw [if_pos h0] at hc
    simp only [String.data] at hc
    simp at hc
    subst hc
    decide
  · rw [if_neg h0] at hc
    exact natDigitsAux_digits (n + 1) n c hc

theorem natToString_val {n : ℕ} : digitsVal 0 (natToString n).data = n := by
  rw [natToString]
  by_cases h0 : n = 0
  · subst h0; rw [if_pos rfl]; decide
  · rw [if_neg h0]
    have := natDigitsAux_val (n + 1) n 0 (by omega)
    simpa using this

theorem natToString_ne_nil {n : ℕ} : (natToString n).data ≠ [] := by
  rw [natToString]
  by_cases h0 : n = 0
  · rw [if_pos h0]; simp
  · rw [if_neg h0]
    exact natDigitsAux_ne_nil h0 (by omega)

theorem natToString_len_le {n k : ℕ} (h : n < 10 ^ k) (hk : 1 ≤ k) :
    (natToString n).data.length ≤ k := by
  rw [natToString]
  by_cases h0 : n = 0
  · rw [if_pos h0]; simpa using hk
  · rw [if_neg h0]
    exact natDigitsAux_len_le (n + 1) n k h

theorem parseDigits_append {D : List Char} (hD : ∀ c ∈ D, isDigitC c = true) :
    ∀ rest, (∀ c, rest.head? = some c → isDigitC c = false) →
    ∀ acc cnt, parseDigits (D ++ rest) acc cnt = (digitsVal acc D, cnt + D.length, rest) := by
  induction D with
  | nil =>
    intro rest hr acc cnt
    cases rest with
    | nil => simp [parseDigits, digitsVal]
    | cons c r =>
      simp only [List.nil_append, parseDigits, hr c rfl]
      simp [digitsVal]
  | cons d D ih =>
    intro rest hr acc cnt
    rw [List.cons_append, parseDigits, if_pos (hD d (List.mem_cons_self ..))]
    rw [ih (fun c hc => hD c (List.mem_cons_of_mem _ hc)) rest hr]
    simp only [digitsVal, List.foldl_cons, List.length_cons]
    have hcnt : cnt + 1 + D.length = cnt + (D.length + 1) := by omega
    rw [hcnt]

theorem padZeros_data {k m : ℕ} :
    (padZeros k m).data
      = List.replicate (k - (natToString m).length) '0' ++ (natToString m).data := by
  rw [padZeros, String.data_append]

theorem padZeros_digits {k m : ℕ} :
    ∀ c ∈ (padZeros k m).data, isDigitC c = true := by
  intro c hc
  rw [padZeros_data] at hc
  rcases List.mem_append.mp hc with h | h
  · rw [List.eq_of_mem_replicate h]; decide
  · exact natToString_digits c h

theorem digitsVal_replicate_zero (j : ℕ) :
    digitsVal 0 (List.replicate j '0') = 0 := by
  induction j with
  | zero => rfl
  | succ j ih =>
    rw [List.replicate_succ]
    simpa [digitsVal] using ih

theorem padZeros_val {k m : ℕ} : digitsVal 0 (padZeros k m).data = m := by
  rw [padZeros_data, digitsVal_append, digitsVal_replicate_zero, natToString_val]

theorem padZeros_len {k m : ℕ} (h : m < 10 ^ k) (hk : 1 ≤ k) :
    (padZeros k m).data.length = k := by
  rw [padZeros_data, List.length_append, List.length_replicate]
  have hL : (natToString m).data.length ≤ k := natToString_len_le h hk
  have : (natToString m).length = (natToString m).data.length := rfl
  omega

theorem den_one_intCast {q : ℚ} (h : q.den = 1) : (q.num : ℚ) = q := by
  have := Rat.num_div_den q
  rw [h] at this
  simpa using this

theorem den_one_mul_pow {r : ℚ} (h : r.den = 1) (j : ℕ) : (r * 10 ^ j).den = 1 := by
  have hr := den_one_intCast h
  rw [← hr]
  have hc : (r.num : ℚ) * 10 ^ j = ((r.num * 10 ^ j : ℤ) : ℚ) := by push_cast; ring
  rw [hc, Rat.den_intCast]

theorem decExpAux_den :
    ∀ fuel (q : ℚ) (k : ℕ), decExpAux fuel q = some k → (q * 10 ^ k).den = 1 := by
  intro fuel
  induction fuel with
  | zero => intro q k h; simp [decExpAux] at h
  | succ f ih =>
    intro q k h
    rw [decExpAux] at h
    by_cases hd : q.den = 1
    · rw [if_pos hd] at h
      simp only [Option.some_inj] at h
      subst h
      simpa using hd
    · rw [if_neg hd] at h
      simp only [Option.map_eq_some'] at h
      obtain ⟨k2, hk2, hk⟩ := h
      subst hk
      have := ih (q * 10) k2 hk2
      have hq : q * 10 ^ (k2 + 1) = q * 10 * 10 ^ k2 := by ring
      rw [hq]
      exact this

theorem decExp_den_max {q : ℚ} {k : ℕ} (h : decExp q = some k) (k1 : ℕ) (hk : k ≤ k1) :
    (q * 10 ^ k1).den = 1 := by
  have h1 : (q * 10 ^ k).den = 1 := decExpAux_den 400 q k h
  have h2 := den_one_mul_pow h1 (k1 - k)
  have hq : q * 10 ^ k * 10 ^ (k1 - k) = q * 10 ^ k1 := by
    rw [mul_assoc, ← pow_add]
    congr 2
    omega
  rwa [hq] at h2

theorem parseNumAbs_nat {n : ℕ} {rest : List Char}
    (hr : ∀ c, rest.head? = some c → isDigitC c = false ∧ c ≠ '.') :
    parseNumAbs ((natToString n).data ++ rest) = some (.num false (mkRat n 1), rest) := by
  have hpd := parseDigits_append (D := (natToString n).data) (natToString_digits (n := n))
    rest (fun c hc => (hr c hc).1) 0 0
  rw [parseNumAbs, hpd, natToString_val]
  dsimp only
  have hlen : (natToString n).data.length ≠ 0 := by
    intro h
    exact natToString_ne_nil (List.length_eq_zero.mp h)
  rw [if_neg (by simpa using hlen)]
  cases rest with
  | nil => rfl
  | cons c r2 =>
    dsimp only
    rw [if_neg (hr c rfl).2]

theorem natToString_head {n : ℕ} :
    ∃ c cs, (natToString n).data = c :: cs ∧ isDigitC c = true := by
  cases hd : (natToString n).data with
  | nil => exact absurd hd natToString_ne_nil
  | cons c cs =>
    refine ⟨c, cs, rfl, natToString_digits (n := n) c ?_⟩
    rw [hd]
    exact List.mem_cons_self ..

theorem parseNumber_int {q : ℚ} (hden : q.den = 1) {rest : List Char}
    (hr : ∀ c, rest.head? = some c → isDigitC c = false ∧ c ≠ '.') :
    parseNumber ((intToString q.num).data ++ rest) = some (.num false q, rest) := by
  rw [intToString]
  by_cases hneg : q.num < 0
  · rw [if_pos hneg]
    rw [String.data_append]
    have hm : ("-" : String).data = ['-'] := rfl
    rw [hm, List.append_assoc, List.singleton_append]
    rw [parseNumber, if_pos rfl, parseNumAbs_nat hr]
    simp only [Option.map_some', Option.some_inj]
    refine Prod.ext ?_ rfl
    show Value.num false (Rat.neg (mkRat (q.num.natAbs : ℤ) 1)) = Value.num false q
    congr 1
    show -(mkRat (q.num.natAbs : ℤ) 1) = q
    rw [Rat.mkRat_one]
    have habs : ((q.num.natAbs : ℤ) : ℚ) = -(q.num : ℚ) := by
      have : (q.num.natAbs : ℤ) = -q.num := by omega
      rw [this]
      push_cast
      ring
    rw [habs, neg_neg, den_one_intCast hden]
  · rw [if_neg hneg]
    obtain ⟨c, cs, hdata, hdig⟩ := natToString_head (n := q.num.natAbs)
    rw [hdata, List.cons_append, parseNumber]
    have hcne : c ≠ '-' := by
      intro h
      subst h
      exact absurd hdig (by decide)
    rw [if_neg hcne, ← List.cons_append, ← hdata, parseNumAbs_nat hr]
    simp only [Option.some_inj]
    refine Prod.ext ?_ rfl
    show Value.num false (mkRat (q.num.natAbs : ℤ) 1) = Value.num false q
    congr 1
    rw [Rat.mkRat_one]
    have : (q.num.natAbs : ℤ) = q.num := by omega
    rw [this, den_one_intCast hden]

theorem floatRepr_eq {q : ℚ} {k : ℕ} (hk : decExp |q| = some k) :
    floatRepr q = (if q < 0 then "-" else "")
      ++ natToString ((|q| * 10 ^ max k 1).num.toNat / 10 ^ max k 1) ++ "."
      ++ padZeros (max k 1) ((|q| * 10 ^ max k 1).num.toNat % 10 ^ max k 1) := by
  rw [floatRepr]
  simp only [hk]

theorem mkRat_recover {A : ℚ} {k : ℕ} (hA : 0 ≤ A) (hden : (A * 10 ^ k).den = 1) :
    mkRat ((A * 10 ^ k).num.toNat : ℤ) (10 ^ k) = A := by
  have hnum : ((A * 10 ^ k).num : ℚ) = A * 10 ^ k := den_one_intCast hden
  have hpos : (0 : ℚ) ≤ A * 10 ^ k := by positivity
  have hnn : 0 ≤ (A * 10 ^ k).num := Rat.num_nonneg.mpr hpos
  have htn : ((A * 10 ^ k).num.toNat : ℤ) = (A * 10 ^ k).num := Int.toNat_of_nonneg hnn
  rw [Rat.mkRat_eq_div, htn, hnum]
  have h10 : ((10 : ℚ) ^ k) ≠ 0 := by positivity
  push_cast
  field_simp

theorem parseNumAbs_float {A : ℚ} {k : ℕ} (hA : 0 ≤ A) (hden : (A * 10 ^ k).den = 1)
    (hk : 1 ≤ k) {rest : List Char}
    (hr : ∀ c, rest.head? = some c → isDigitC c = false ∧ c ≠ '.') :
    parseNumAbs ((natToString ((A * 10 ^ k).num.toNat / 10 ^ k)).data
      ++ '.' :: ((padZeros k ((A * 10 ^ k).num.toNat % 10 ^ k)).data ++ rest))
      = some (.num true A, rest) := by
  have hpd1 := parseDigits_append
    (D := (natToString ((A * 10 ^ k).num.toNat / 10 ^ k)).data)
    (natToString_digits (n := (A * 10 ^ k).num.toNat / 10 ^ k))
    ('.' :: ((padZeros k ((A * 10 ^ k).num.toNat % 10 ^ k)).data ++ rest))
    (fun c hc => by
      simp only [List.head?] at hc
      rw [← Option.some_inj.mp hc]
      decide) 0 0
  rw [parseNumAbs, hpd1, natToString_val]
  dsimp only
  have hlen : (natToString ((A * 10 ^ k).num.toNat / 10 ^ k)).data.length ≠ 0 := by
    intro h
    exact natToString_ne_nil (List.length_eq_zero.mp h)
  rw [if_neg (by simpa using hlen), if_pos rfl]
  have hpd2 := parseDigits_append
    (D := (padZeros k ((A * 10 ^ k).num.toNat % 10 ^ k)).data)
    (padZeros_digits (k := k) (m := (A * 10 ^ k).num.toNat % 10 ^ k))
    rest (fun c hc => (hr c hc).1) 0 0
  rw [hpd2, padZeros_val]
  have hmod : (A * 10 ^ k).num.toNat % 10 ^ k < 10 ^ k :=
    Nat.mod_lt _ (by positivity)
  rw [padZeros_len hmod hk]
  dsimp only
  rw [if_neg (by omega)]
  have hsplit : (A * 10 ^ k).num.toNat / 10 ^ k * 10 ^ k
      + (A * 10 ^ k).num.toNat % 10 ^ k = (A * 10 ^ k).num.toNat := by
    rw [Nat.mul_comm]
    exact Nat.div_add_mod ..
  have hval : ((((A * 10 ^ k).num.toNat / 10 ^ k : ℕ) : ℤ) * 10 ^ k
      + (((A * 10 ^ k).num.toNat % 10 ^ k : ℕ) : ℤ))
      = (((A * 10 ^ k).num.toNat : ℕ) : ℤ) := by
    exact_mod_cast hsplit
  simp only [Nat.zero_add]
  rw [hval, mkRat_recover hA hden]

theorem parseNumber_float {q : ℚ} {k : ℕ} (hk : decExp |q| = some k) {rest : List Char}
    (hr : ∀ c, rest.head? = some c → isDigitC c = false ∧ c ≠ '.') :
    parseNumber ((floatRepr q).data ++ rest) = some (.num true q, rest) := by
  have hden : (|q| * 10 ^ max k 1).den = 1 := decExp_den_max hk _ (le_max_left k 1)
  have habs : (0 : ℚ) ≤ |q| := abs_nonneg q
  have hfa := parseNumAbs_float (k := max k 1) habs hden (le_max_right k 1) hr
  rw [floatRepr_eq hk]
  by_cases hneg : q < 0
  · rw [if_pos hneg]
    have hdata : ((("-" ++ natToString ((|q| * 10 ^ max k 1).num.toNat / 10 ^ max k 1))
          ++ "." ++ padZeros (max k 1) ((|q| * 10 ^ max k 1).num.toNat % 10 ^ max k 1)).data
          ++ rest)
        = '-' :: ((natToString ((|q| * 10 ^ max k 1).num.toNat / 10 ^ max k 1)).data
          ++ '.' :: ((padZeros (max k 1)
              ((|q| * 10 ^ max k 1).num.toNat % 10 ^ max k 1)).data ++ rest)) := by
      simp only [String.data_append, List.append_assoc]
      rfl
    rw [hdata, parseNumber, if_pos rfl, hfa]
    simp only [Option.map_some', Option.some_inj]
    refine Prod.ext ?_ rfl
    show Value.num true (Rat.neg |q|) = Value.num true q
    congr 1
    show -|q| = q
    rw [abs_of_neg hneg, neg_neg]
  · rw [if_neg hneg]
    obtain ⟨c, cs, hhead, hdig⟩ :=
      natToString_head (n := (|q| * 10 ^ max k 1).num.toNat / 10 ^ max k 1)
    have hdata : ((("" ++ natToString ((|q| * 10 ^ max k 1).num.toNat / 10 ^ max k 1))
          ++ "." ++ padZeros (max k 1) ((|q| * 10 ^ max k 1).num.toNat % 10 ^ max k 1)).data
          ++ rest)
        = c :: (cs ++ '.' :: ((padZeros (max k 1)
            ((|q| * 10 ^ max k 1).num.toNat % 10 ^ max k 1)).data ++ rest)) := by
      simp only [String.data_append, List.append_assoc, hhead]
      rfl
    rw [hdata, parseNumber]
    have hcne : c ≠ '-' := by
      intro h
      subst h
      exact absurd hdig (by decide)
    rw [if_neg hcne]
    have hback : c :: (cs ++ '.' :: ((padZeros (max k 1)
          ((|q| * 10 ^ max k 1).num.toNat % 10 ^ max k 1)).data ++ rest))
        = (natToString ((|q| * 10 ^ max k 1).num.toNat / 10 ^ max k 1)).data
          ++ '.' :: ((padZeros (max k 1)
            ((|q| * 10 ^ max k 1).num.toNat % 10 ^ max k 1)).data ++ rest) := by
      rw [hhead, List.cons_append]
    rw [hback, hfa]
    rw [abs_of_nonneg (not_lt.mp hneg)]

/-- Well-formedness of a number value: an `int` has denominator `1`, a
`float` is decimal-exact (in the source every number arriving here was
produced by the YAML/JSON decoders, which only build such values). -/
def wfNum (f : Bool) (q : ℚ) : Bool :=
  if f then (decExp |q|).isSome else q.den = 1

theorem parseNumber_repr {f : Bool} {q : ℚ} (hwf : wfNum f q = true) {rest : List Char}
    (hr : ∀ c, rest.head? = some c → isDigitC c = false ∧ c ≠ '.') :
    parseNumber ((numRepr f q).data ++ rest) = some (.num f q, rest) := by
  cases f with
  | false =>
    rw [numRepr]
    simp only [if_neg Bool.false_ne_true, cond_false]
    exact parseNumber_int (by simpa [wfNum] using hwf) hr
  | true =>
    rw [numRepr]
    simp only [if_pos rfl]
    have : (decExp |q|).isSome = true := by simpa [wfNum] using hwf
    obtain ⟨k, hk⟩ := Option.isSome_iff_exists.mp this
    exact parseNumber_float hk hr

theorem numRepr_head {f : Bool} {q : ℚ} (hwf : wfNum f q = true) :
    ∃ c cs, (numRepr f q).data = c :: cs ∧ (c = '-' ∨ isDigitC c = true) := by
  cases f with
  | false =>
    rw [numRepr]
    simp only [if_neg Bool.false_ne_true, cond_false, intToString]
    by_cases hneg : q.num < 0
    · rw [if_pos hneg]
      exact ⟨'-', (natToString q.num.natAbs).data, by
        rw [String.data_append]; rfl, Or.inl rfl⟩
    · rw [if_neg hneg]
      obtain ⟨c, cs, hd, hdig⟩ := natToString_head (n := q.num.natAbs)
      exact ⟨c, cs, hd, Or.inr hdig⟩
  | true =>
    have hs : (decExp |q|).isSome = true := by simpa [wfNum] using hwf
    obtain ⟨k, hk⟩ := Option.isSome_iff_exists.mp hs
    have hnr : numRepr true q = floatRepr q := rfl
    rw [hnr, floatRepr_eq hk]
    by_cases hneg : q < 0
    · refine ⟨'-', (natToString ((|q| * 10 ^ max k 1).num.toNat / 10 ^ max k 1)).data
        ++ ".".data
        ++ (padZeros (max k 1) ((|q| * 10 ^ max k 1).num.toNat % 10 ^ max k 1)).data,
        ?_, Or.inl rfl⟩
      rw [if_pos hneg]
      simp only [String.data_append, List.append_assoc]
      rfl
    · obtain ⟨c, cs, hd, hdig⟩ :=
        natToString_head (n := (|q| * 10 ^ max k 1).num.toNat / 10 ^ max k 1)
      refine ⟨c, cs ++ ".".data
        ++ (padZeros (max k 1) ((|q| * 10 ^ max k 1).num.toNat % 10 ^ max k 1)).data,
        ?_, Or.inr hdig⟩
      rw [if_neg hneg]
      simp only [String.data_append, List.append_assoc, hd]
      rfl

theorem foldr_esc_append (l b rest : List Char) :
    (l.foldr (fun c acc => escChar false c ++ acc) b) ++ rest
      = l.foldr (fun c acc => escChar false c ++ acc) (b ++ rest) := by
  induction l with
  | nil => rfl
  | cons c cs ih => simp only [List.foldr_cons, List.append_assoc, ih]

set_option maxHeartbeats 1600000 in
theorem escChar_length_pos (ea : Bool) (c : Char) : 0 < (escChar ea c).length := by
  rw [escChar]
  split_ifs <;> simp [hex4]

theorem foldr_esc_length (l b : List Char) :
    b.length + l.length
      ≤ (l.foldr (fun c acc => escChar false c ++ acc) b).length := by
  induction l with
  | nil => simp
  | cons c cs ih =>
    simp only [List.foldr_cons, List.length_cons, List.length_append]
    have := escChar_length_pos false c
    omega

theorem scanUnit_close (r : List Char) : scanUnit ('"' :: r) = some (none, r) := rfl

theorem scanUnit_escQuote (r : List Char) :
    scanUnit ('\\' :: '"' :: r) = some (some '"', r) := rfl

theorem scanUnit_escBackslash (r : List Char) :
    scanUnit ('\\' :: '\\' :: r) = some (some '\\', r) := rfl

theorem scanUnit_escN (r : List Char) :
    scanUnit ('\\' :: 'n' :: r) = some (some '\n', r) := rfl

theorem scanUnit_escT (r : List Char) :
    scanUnit ('\\' :: 't' :: r) = some (some '\t', r) := rfl

theorem scanUnit_escR (r : List Char) :
    scanUnit ('\\' :: 'r' :: r) = some (some '\r', r) := rfl

theorem scanUnit_escB (r : List Char) :
    scanUnit ('\\' :: 'b' :: r) = some (some (Char.ofNat 8), r) := rfl

theorem scanUnit_escF (r : List Char) :
    scanUnit ('\\' :: 'f' :: r) = some (some (Char.ofNat 12), r) := rfl

theorem scanUnit_escU {n : ℕ} (h : n < 32) (r : List Char) :
    scanUnit ('\\' :: 'u' :: (hex4 n ++ r)) = some (some (Char.ofNat n), r) := by
  rw [hex4]
  simp only [List.cons_append, List.nil_append]
  simp only [scanUnit]
  rw [if_neg (show ¬('\\' = '"') by decide)]
  rw [if_pos True.intro]
  rw [if_neg (show ¬((decide ('u' = '"') || decide ('u' = '\\') || decide ('u' = '/'))
    = true) by decide)]
  rw [if_neg (show ¬('u' = 'n') by decide)]
  rw [if_neg (show ¬('u' = 't') by decide)]
  rw [if_neg (show ¬('u' = 'r') by decide)]
  rw [if_neg (show ¬('u' = 'b') by decide)]
  rw [if_neg (show ¬('u' = 'f') by decide)]
  rw [if_pos True.intro]
  rw [hexVal_hexDigit (Nat.mod_lt _ (by norm_num)), Option.some_bind,
    hexVal_hexDigit (Nat.mod_lt _ (by norm_num)), Option.some_bind,
    hexVal_hexDigit (Nat.mod_lt _ (by norm_num)), Option.some_bind,
    hexVal_hexDigit (Nat.mod_lt _ (by norm_num)), Option.some_bind]
  have hn : n / 4096 % 16 * 4096 + n / 256 % 16 * 256
      + n / 16 % 16 * 16 + n % 16 = n := by omega
  rw [if_neg (by omega), hn]

theorem scanUnit_plain {c : Char} (h1 : c ≠ '"') (h2 : c ≠ '\\') (r : List Char) :
    scanUnit (c :: r) = some (some c, r) := by
  simp only [scanUnit]
  rw [if_neg h1, if_neg h2]

theorem parseStringBody_esc :
    ∀ (l : List Char) (fuel : ℕ) (rest : List Char), l.length < fuel →
    parseStringBody fuel (l.foldr (fun c acc => escChar false c ++ acc) ('"' :: rest))
      = some (l, rest) := by
  intro l
  induction l with
  | nil =>
    intro fuel rest h
    cases fuel with
    | zero => omega
    | succ f =>
      rw [List.foldr_nil, parseStringBody, scanUnit_close]
  | cons c cs ih =>
    intro fuel rest h
    cases fuel with
    | zero => simp at h
    | succ f =>
      have hcs : cs.length < f := by simp at h; omega
      rw [List.foldr_cons, escChar]
      by_cases h1 : c = '"'
      · subst h1
        rw [if_pos rfl]
        simp only [List.cons_append, List.nil_append]
        rw [parseStringBody, scanUnit_escQuote]
        dsimp only
        rw [ih f rest hcs]
        rfl
      rw [if_neg h1]
      by_cases h2 : c = '\\'
      · subst h2
        rw [if_pos rfl]
        simp only [List.cons_append, List.nil_append]
        rw [parseStringBody, scanUnit_escBackslash]
        dsimp only
        rw [ih f rest hcs]
        rfl
      rw [if_neg h2]
      by_cases h3 : c = '\n'
      · subst h3
        rw [if_pos rfl]
        simp only [List.cons_append, List.nil_append]
        rw [parseStringBody, scanUnit_escN]
        dsimp only
        rw [ih f rest hcs]
        rfl
      rw [if_neg h3]
      by_cases h4 : c = '\t'
      · subst h4
        rw [if_pos rfl]
        simp only [List.cons_append, List.nil_append]
        rw [parseStringBody, scanUnit_escT]
        dsimp only
        rw [ih f rest hcs]
        rfl
      rw [if_neg h4]
      by_cases h5 : c = '\r'
      · subst h5
        rw [if_pos rfl]
        simp only [List.cons_append, List.nil_append]
        rw [parseStringBody, scanUnit_escR]
        dsimp only
        rw [ih f rest hcs]
        rfl
      rw [if_neg h5]
      by_cases h6 : c = Char.ofNat 8
      · subst h6
        rw [if_pos rfl]
        simp only [List.cons_append, List.nil_append]
        rw [parseStringBody, scanUnit_escB]
        dsimp only
        rw [ih f rest hcs]
        rfl
      rw [if_neg h6]
      by_cases h7 : c = Char.ofNat 12
      · subst h7
        rw [if_pos rfl]
        simp only [List.cons_append, List.nil_append]
        rw [parseStringBody, scanUnit_escF]
        dsimp only
        rw [ih f rest hcs]
        rfl
      rw [if_neg h7]
      by_cases h8 : c.toNat < 32
      · rw [if_pos h8]
        simp only [List.cons_append, List.append_assoc]
        rw [parseStringBody, scanUnit_escU h8]
        dsimp only
        rw [Char.ofNat_toNat, ih f rest hcs]
        rfl
      rw [if_neg h8]
      rw [if_neg (by simp)]
      simp only [List.cons_append, List.nil_append]
      rw [parseStringBody, scanUnit_plain h1 h2]
      dsimp only
      rw [ih f rest hcs]
      rfl

theorem parseStringBody_escString (s : String) {fuel : ℕ}
    (hf : s.data.length < fuel) (rest : List Char) :
    parseStringBody fuel ((escString false s).data.tail ++ rest)
      = some (s.data, rest) := by
  have htail : (escString false s).data.tail ++ rest
      = s.data.foldr (fun c acc => escChar false c ++ acc) ('"' :: rest) := by
    rw [escString]
    show (s.data.foldr (fun c acc => escChar false c ++ acc) ['"']) ++ rest = _
    rw [foldr_esc_append]
    rfl
  rw [htail]
  exact parseStringBody_esc s.data fuel rest hf

mutual
/-- Well-formedness of decoded values as built by the YAML/JSON decoders:
every number is an exact `int` (denominator `1`) or a decimal-exact
`float`. -/
def wfV : Value → Bool
  | .null => true
  | .bool _ => true
  | .num f q => wfNum f q
  | .str _ => true
  | .seq xs => wfL xs
  | .map m => wfM m

/-- `wfV` over a list of values. -/
def wfL : List Value → Bool
  | [] => true
  | x :: xs => wfV x && wfL xs

/-- `wfV` over the values of an association list. -/
def wfM : List (String × Value) → Bool
  | [] => true
  | kv :: m => wfV kv.2 && wfM m
end

/-- Text that may safely follow a rendered number: its head continues
neither the digit run nor a fraction. -/
def numOk : List Char → Bool
  | [] => true
  | c :: _ => !(isDigitC c || c = '.')

theorem strMk_data (k : String) : String.mk k.data = k := by
  cases k
  rfl

theorem parseVal_nullE (f : ℕ) (r : List Char) :
    parseVal (f + 1) ('n' :: 'u' :: 'l' :: 'l' :: r) = some (.null, r) := rfl

theorem parseVal_trueE (f : ℕ) (r : List Char) :
    parseVal (f + 1) ('t' :: 'r' :: 'u' :: 'e' :: r) = some (.bool true, r) := rfl

theorem parseVal_falseE (f : ℕ) (r : List Char) :
    parseVal (f + 1) ('f' :: 'a' :: 'l' :: 's' :: 'e' :: r) = some (.bool false, r) := rfl

theorem parseVal_strE (f : ℕ) (r : List Char) :
    parseVal (f + 1) ('"' :: r)
      = (parseStringBody (r.length + 1) r).map (fun p => (.str ⟨p.1⟩, p.2)) := rfl

theorem parseElems_succ (f : ℕ) (l : List Char) :
    parseElems (f + 1) l
      = (parseVal f l).bind fun p =>
          match skipWs p.2 with
          | [] => none
          | d :: r2 =>
            if d = ']' then some ([p.1], r2)
            else if d = ',' then
              (parseElems f (skipWs r2)).map (fun q => (p.1 :: q.1, q.2))
            else none := rfl

theorem parseMembers_strE (f : ℕ) (r : List Char) :
    parseMembers (f + 1) ('"' :: r)
      = (parseStringBody (r.length + 1) r).bind fun kp =>
          match skipWs kp.2 with
          | [] => none
          | d0 :: r2 =>
            if d0 = ':' then
              (parseVal f (skipWs r2)).bind fun vp =>
                match skipWs vp.2 with
                | [] => none
                | d :: r3 =>
                  if d = Char.ofNat 125 then some ([(⟨kp.1⟩, vp.1)], r3)
                  else if d = ',' then
                    (parseMembers f (skipWs r3)).map
                      (fun q => ((⟨kp.1⟩, vp.1) :: q.1, q.2))
                  else none
            else none := rfl

theorem parseVal_seqE (f : ℕ) (r : List Char) :
    parseVal (f + 1) ('[' :: r)
      = (match skipWs r with
         | [] => none
         | d :: r2 =>
           if d = ']' then some (.seq [], r2)
           else (parseElems f (d :: r2)).map (fun p => (.seq p.1, p.2))) := rfl

theorem parseVal_mapE (f : ℕ) (r : List Char) :
    parseVal (f + 1) (Char.ofNat 123 :: r)
      = (match skipWs r with
         | [] => none
         | d :: r2 =>
           if d = Char.ofNat 125 then some (.map [], r2)
           else (parseMembers f (d :: r2)).map (fun p => (.map p.1, p.2))) := rfl

theorem parseVal_numE (f : ℕ) {c : Char} (h1 : c ≠ 'n') (h2 : c ≠ 't') (h3 : c ≠ 'f')
    (h4 : c ≠ '"') (h5 : c ≠ '[') (h6 : c ≠ Char.ofNat 123) (r : List Char) :
    parseVal (f + 1) (c :: r) = parseNumber (c :: r) := by
  rw [parseVal.eq_def]
  dsimp only
  rw [if_neg h1, if_neg h2, if_neg h3, if_neg h4, if_neg h5, if_neg h6]

/-- The characters that can start a `pjson` rendering. -/
def headSet (c : Char) : Prop :=
  c = 'n' ∨ c = 't' ∨ c = 'f' ∨ c = '-' ∨ isDigitC c = true ∨ c = '"'
    ∨ c = '[' ∨ c = Char.ofNat 123

theorem digit_not_ws {c : Char} (hd : isDigitC c = true) : isWsC c = false := by
  by_contra hne
  have hws : isWsC c = true := by
    cases hb : isWsC c
    · exact absurd hb hne
    · rfl
  simp only [isWsC, Bool.or_eq_true, decide_eq_true_eq] at hws
  rcases hws with ((rfl | rfl) | rfl) | rfl <;> exact absurd hd (by decide)

theorem headSet_facts {c : Char} (h : headSet c) :
    isWsC c = false ∧ c ≠ ']' ∧ c ≠ Char.ofNat 125 := by
  rcases h with rfl | rfl | rfl | rfl | hd | rfl | rfl | rfl
  · exact ⟨by decide, by decide, by decide⟩
  · exact ⟨by decide, by decide, by decide⟩
  · exact ⟨by decide, by decide, by decide⟩
  · exact ⟨by decide, by decide, by decide⟩
  · refine ⟨digit_not_ws hd, ?_, ?_⟩
    · intro h; subst h; exact absurd hd (by decide)
    · intro h; subst h; exact absurd hd (by decide)
  · exact ⟨by decide, by decide, by decide⟩
  · exact ⟨by decide, by decide, by decide⟩
  · exact ⟨by decide, by decide, by decide⟩

theorem numHead_facts {c : Char} (h : c = '-' ∨ isDigitC c = true) :
    c ≠ 'n' ∧ c ≠ 't' ∧ c ≠ 'f' ∧ c ≠ '"' ∧ c ≠ '[' ∧ c ≠ Char.ofNat 123 := by
  rcases h with rfl | hd
  · exact ⟨by decide, by decide, by decide, by decide, by decide, by decide⟩
  · refine ⟨?_, ?_, ?_, ?_, ?_, ?_⟩ <;>
      (intro h; subst h; exact absurd hd (by decide))

theorem pjson_head (ind : ℕ) {v : Value} (hwf : wfV v = true) :
    ∃ c cs, (pjson ind v).data = c :: cs ∧ headSet c := by
  cases v with
  | null => exact ⟨'n', ['u', 'l', 'l'], rfl, Or.inl rfl⟩
  | bool b =>
    cases b
    · exact ⟨'f', ['a', 'l', 's', 'e'], rfl, by simp [headSet]⟩
    · exact ⟨'t', ['r', 'u', 'e'], rfl, by simp [headSet]⟩
  | num f q =>
    have hn : wfNum f q = true := by simpa [wfV] using hwf
    obtain ⟨c, cs, hd, hc⟩ := numRepr_head hn
    refine ⟨c, cs, hd, ?_⟩
    rcases hc with rfl | h
    · simp [headSet]
    · simp [headSet, h]
  | str s =>
    refine ⟨'"', s.data.foldr (fun c acc => escChar false c ++ acc) ['"'], ?_, by simp [headSet]⟩
    rfl
  | seq xs =>
    cases xs with
    | nil => exact ⟨'[', [']'], rfl, by simp [headSet]⟩
    | cons x xs =>
      refine ⟨'[', '\n' :: ((pjsonItems (ind + 2) (x :: xs)).data
        ++ ('\n' :: ((spaces ind).data ++ [']']))), ?_, by simp [headSet]⟩
      show (("[\n" ++ pjsonItems (ind + 2) (x :: xs) ++ "\n" ++ spaces ind ++ "]")).data = _
      simp only [String.data_append, List.append_assoc]
      rfl
  | map m =>
    cases m with
    | nil =>
      refine ⟨Char.ofNat 123, [Char.ofNat 125], ?_, by simp [headSet]⟩
      rfl
    | cons kv kvs =>
      refine ⟨Char.ofNat 123, '\n' :: ((pjsonEntries (ind + 2) (kv :: kvs)).data
        ++ ('\n' :: ((spaces ind).data ++ [Char.ofNat 125]))), ?_, by simp [headSet]⟩
      show (("\x7b\n" ++ pjsonEntries (ind + 2) (kv :: kvs) ++ "\n" ++ spaces ind
        ++ "\x7d")).data = _
      simp only [String.data_append, List.append_assoc]
      rfl

section ValInd

variable (P : Value → Prop) (Q : List Value → Prop) (R : List (String × Value) → Prop)
  (hnull : P .null) (hbool : ∀ b, P (.bool b)) (hnum : ∀ f q, P (.num f q))
  (hstr : ∀ s, P (.str s)) (hseq : ∀ xs, Q xs → P (.seq xs))
  (hmap : ∀ m, R m → P (.map m)) (qnil : Q [])
  (qcons : ∀ x xs, P x → Q xs → Q (x :: xs)) (rnil : R [])
  (rcons : ∀ k w m, P w → R m → R ((k, w) :: m))

mutual
/-- Mutual induction over values and the lists nested inside them. -/
def valInd : ∀ v, P v
  | .null => hnull
  | .bool b => hbool b
  | .num f q => hnum f q
  | .str s => hstr s
  | .seq xs => hseq xs (listInd xs)
  | .map m => hmap m (mapInd m)
termination_by v => 2 * vsize v
decreasing_by
  · simp [vsize]; omega
  · simp [vsize]; omega

/-- Mutual induction: list component. -/
def listInd : ∀ xs, Q xs
  | [] => qnil
  | x :: xs => qcons x xs (valInd x) (listInd xs)
termination_by xs => 2 * vsizeL xs + 1
decreasing_by
  · simp [vsizeL]; omega
  · simp [vsizeL]; have := vsize_pos x; omega

/-- Mutual induction: mapping component. -/
def mapInd : ∀ m, R m
  | [] => rnil
  | (k, w) :: m => rcons k w m (valInd w) (mapInd m)
termination_by m => 2 * vsizeM m + 1
decreasing_by
  · simp [vsizeM]; omega
  · simp [vsizeM]; have := vsize_pos w; omega
end

end ValInd

theorem pythonEqList_refl_of {xs : List Value} (h : ∀ x ∈ xs, pythonEq x x = true) :
    pythonEqList xs xs = true := by
  induction xs with
  | nil => rfl
  | cons x xs ih =>
    rw [pythonEqList]
    simp only [Bool.and_eq_true]
    exact ⟨h x (List.mem_cons_self ..), ih (fun y hy => h y (List.mem_cons_of_mem _ hy))⟩

theorem pythonEqEntries_of {sub full : List (String × Value)}
    (h : ∀ kv ∈ sub, lookupKey kv.1 full = some kv.2 ∧ pythonEq kv.2 kv.2 = true) :
    pythonEqEntries sub full = true := by
  induction sub with
  | nil => rfl
  | cons kv rest ih =>
    obtain ⟨k, v⟩ := kv
    rw [pythonEqEntries]
    have h1 := h (k, v) (List.mem_cons_self ..)
    rw [h1.1]
    simp only [Bool.and_eq_true]
    exact ⟨h1.2, ih (fun kv2 h2 => h kv2 (List.mem_cons_of_mem _ h2))⟩

/-- Python `==` is reflexive on values whose dicts have no duplicate keys
(Python dicts never do). -/
theorem pythonEq_refl : ∀ {v : Value}, nodupV v = true → pythonEq v v = true := by
  have main := valInd
    (fun v => nodupV v = true → pythonEq v v = true)
    (fun xs => ∀ x ∈ xs, nodupV x = true → pythonEq x x = true)
    (fun m => ∀ kv ∈ m, nodupV kv.2 = true → pythonEq kv.2 kv.2 = true)
    (fun _ => rfl)
    (fun b _ => by cases b <;> rfl)
    (fun f q _ => by rw [pythonEq]; simp)
    (fun s _ => by rw [pythonEq]; simp)
    (fun xs hQ hnd => by
      rw [pythonEq]
      exact pythonEqList_refl_of
        (fun x hx => hQ x hx (nodupVL_mem (by simpa [nodupV] using hnd) hx)))
    (fun m hR hnd => by
      rw [nodupV] at hnd
      simp only [Bool.and_eq_true] at hnd
      rw [pythonEq]
      simp only [Bool.and_eq_true, beq_self_eq_true]
      refine ⟨trivial, ?_⟩
      refine pythonEqEntries_of (fun kv hkv => ?_)
      obtain ⟨k, w⟩ := kv
      exact ⟨lookupKey_of_mem hnd.1 hkv,
        hR (k, w) hkv (nodupVM_mem hnd.2 hkv)⟩)
    (fun x hx => by simp at hx)
    (fun x xs hP hQ y hy => by
      rcases List.mem_cons.mp hy with rfl | hy2
      · exact hP
      · exact hQ y hy2)
    (fun kv hkv => by simp at hkv)
    (fun k w m hP hR kv hkv => by
      rcases List.mem_cons.mp hkv with rfl | h2
      · exact hP
      · exact hR kv h2)
  intro v
  exact main v

theorem numOk_spec {rest : List Char} (h : numOk rest = true) :
    ∀ c, rest.head? = some c → isDigitC c = false ∧ c ≠ '.' := by
  intro c hc
  cases rest with
  | nil => simp at hc
  | cons r0 rr =>
    simp only [List.head?, Option.some_inj] at hc
    subst hc
    rw [numOk] at h
    simp only [Bool.not_eq_true', Bool.or_eq_false_iff, decide_eq_false_iff_not] at h
    exact h

theorem spaces_ws (n : ℕ) : ∀ c ∈ (spaces n).data, isWsC c = true := by
  intro c hc
  have : c = ' ' := List.eq_of_mem_replicate hc
  subst this
  decide

theorem skipWs_spaces (n : ℕ) (l : List Char) :
    skipWs ((spaces n).data ++ l) = skipWs l :=
  skipWs_append (spaces_ws n) l

theorem skipWs_pjson {v : Value} (ind : ℕ) (hwf : wfV v = true) (X : List Char) :
    skipWs ((pjson ind v).data ++ X) = (pjson ind v).data ++ X := by
  obtain ⟨c, cs, hd, hset⟩ := pjson_head ind hwf
  apply skipWs_not_ws
  intro c2 hc2
  rw [hd, List.cons_append] at hc2
  simp only [List.head?, Option.some_inj] at hc2
  subst hc2
  exact (headSet_facts hset).1

theorem pjson_num (ind : ℕ) (f : Bool) (q : ℚ) :
    pjson ind (.num f q) = numRepr f q := rfl

theorem pjson_str (ind : ℕ) (s : String) :
    pjson ind (.str s) = escString false s := rfl

theorem pjson_seq_cons (ind : ℕ) (x : Value) (xs : List Value) :
    pjson ind (.seq (x :: xs))
      = "[\n" ++ pjsonItems (ind + 2) (x :: xs) ++ "\n" ++ spaces ind ++ "]" := rfl

theorem pjson_map_cons (ind : ℕ) (kv : String × Value) (kvs : List (String × Value)) :
    pjson ind (.map (kv :: kvs))
      = "\x7b\n" ++ pjsonEntries (ind + 2) (kv :: kvs) ++ "\n" ++ spaces ind
        ++ "\x7d" := rfl

theorem pjsonItems_one (ind : ℕ) (x : Value) :
    pjsonItems ind [x] = spaces ind ++ pjson ind x := rfl

theorem pjsonItems_cons2 (ind : ℕ) (x y : Value) (ys : List Value) :
    pjsonItems ind (x :: y :: ys)
      = spaces ind ++ pjson ind x ++ ",\n" ++ pjsonItems ind (y :: ys) := rfl

theorem pjsonEntries_one (ind : ℕ) (k : String) (v : Value) :
    pjsonEntries ind [(k, v)]
      = spaces ind ++ escString false k ++ ": " ++ pjson ind v := rfl

theorem pjsonEntries_cons2 (ind : ℕ) (k : String) (v : Value) (e : String × Value)
    (es : List (String × Value)) :
    pjsonEntries ind ((k, v) :: e :: es)
      = spaces ind ++ escString false k ++ ": " ++ pjson ind v ++ ",\n"
        ++ pjsonEntries ind (e :: es) := rfl

theorem itemsHead {x : Value} (ind : ℕ) (hwfx : wfV x = true) (xs : List Value)
    (E : List Char) :
    ∃ tl, skipWs ((pjsonItems ind (x :: xs)).data ++ E)
      = (pjson ind x).data ++ tl := by
  cases xs with
  | nil =>
    refine ⟨E, ?_⟩
    rw [pjsonItems_one, String.data_append, List.append_assoc, skipWs_spaces]
    exact skipWs_pjson ind hwfx E
  | cons y ys =>
    refine ⟨(",\n").data ++ ((pjsonItems ind (y :: ys)).data ++ E), ?_⟩
    rw [pjsonItems_cons2]
    simp only [String.data_append, List.append_assoc]
    rw [skipWs_spaces]
    exact skipWs_pjson ind hwfx _

theorem entriesHead (ind : ℕ) (k : String) (w : Value)
    (m' : List (String × Value)) (E : List Char) :
    ∃ tl, skipWs ((pjsonEntries ind ((k, w) :: m')).data ++ E) = '"' :: tl := by
  cases m' with
  | nil =>
    refine ⟨(k.data.foldr (fun c acc => escChar false c ++ acc) ['"'])
      ++ ((": ").data ++ ((pjson ind w).data ++ E)), ?_⟩
    rw [pjsonEntries_one]
    simp only [String.data_append, List.append_assoc]
    rw [skipWs_spaces]
    rw [escString]
    show skipWs (('"' :: k.data.foldr (fun c acc => escChar false c ++ acc) ['"'])
      ++ ((": ").data ++ ((pjson ind w).data ++ E))) = _
    rw [skipWs_not_ws]
    · rfl
    · intro c2 hc2
      simp only [List.cons_append, List.head?, Option.some_inj] at hc2
      subst hc2
      decide
  | cons e es =>
    obtain ⟨k2, w2⟩ := e
    refine ⟨(k.data.foldr (fun c acc => escChar false c ++ acc) ['"'])
      ++ ((": ").data ++ ((pjson ind w).data ++ ((",\n").data
        ++ ((pjsonEntries ind ((k2, w2) :: es)).data ++ E)))), ?_⟩
    rw [pjsonEntries_cons2]
    simp only [String.data_append, List.append_assoc]
    rw [skipWs_spaces]
    rw [escString]
    show skipWs (('"' :: k.data.foldr (fun c acc => escChar false c ++ acc) ['"'])
      ++ ((": ").data ++ ((pjson ind w).data ++ ((",\n").data
        ++ ((pjsonEntries ind ((k2, w2) :: es)).data ++ E))))) = _
    rw [skipWs_not_ws]
    · rfl
    · intro c2 hc2
      simp only [List.cons_append, List.head?, Option.some_inj] at hc2
      subst hc2
      decide

theorem skipWs_cons_ws {c : Char} (h : isWsC c = true) (l : List Char) :
    skipWs (c :: l) = skipWs l := by
  rw [skipWs, if_pos h]

theorem skipWs_cons_not {c : Char} (h : isWsC c = false) (l : List Char) :
    skipWs (c :: l) = c :: l := by
  rw [skipWs]
  simp [h]

/-- Fuel-indexed round-trip: on the text `pjson` emits, `parseVal`,
`parseElems` and `parseMembers` reconstruct exactly the rendered value. -/
theorem roundtrip_fuel : ∀ fuel : ℕ,
    (∀ (v : Value) (ind : ℕ) (rest : List Char), wfV v = true → numOk rest = true →
      2 * vsize v ≤ fuel →
      parseVal fuel ((pjson ind v).data ++ rest) = some (v, rest))
    ∧ (∀ (xs : List Value) (ind ind0 : ℕ) (rest : List Char), xs ≠ [] →
      wfL xs = true → 2 * vsizeL xs + 1 ≤ fuel →
      parseElems fuel (skipWs ((pjsonItems ind xs).data
        ++ '\n' :: ((spaces ind0).data ++ (']' :: rest)))) = some (xs, rest))
    ∧ (∀ (m : List (String × Value)) (ind ind0 : ℕ) (rest : List Char), m ≠ [] →
      wfM m = true → 2 * vsizeM m + 1 ≤ fuel →
      parseMembers fuel (skipWs ((pjsonEntries ind m).data
        ++ '\n' :: ((spaces ind0).data ++ (Char.ofNat 125 :: rest))))
        = some (m, rest)) := by
  intro fuel
  induction fuel with
  | zero =>
    refine ⟨?_, ?_, ?_⟩
    · intro v _ _ _ _ hf
      have := vsize_pos v
      omega
    · intro xs _ _ _ _ _ hf
      omega
    · intro m _ _ _ _ _ hf
      omega
  | succ f ih =>
    obtain ⟨ihV, ihE, ihM⟩ := ih
    refine ⟨?_, ?_, ?_⟩
    · -- parseVal on pjson output
      intro v ind rest hwf hnum hfl
      cases v with
      | null => exact parseVal_nullE f rest
      | bool b =>
        cases b
        · exact parseVal_falseE f rest
        · exact parseVal_trueE f rest
      | num fq q =>
        have hwfn : wfNum fq q = true := by simpa [wfV] using hwf
        obtain ⟨c, cs, hd, hc⟩ := numRepr_head hwfn
        obtain ⟨g1, g2, g3, g4, g5, g6⟩ := numHead_facts hc
        have hdata : (pjson ind (.num fq q)).data ++ rest = c :: (cs ++ rest) := by
          rw [pjson_num, hd, List.cons_append]
        rw [hdata, parseVal_numE f g1 g2 g3 g4 g5 g6, ← List.cons_append, ← hd]
        exact parseNumber_repr hwfn (numOk_spec hnum)
      | str s =>
        have hdata : (pjson ind (.str s)).data ++ rest
            = '"' :: (s.data.foldr (fun c acc => escChar false c ++ acc)
              ('"' :: rest)) := by
          rw [pjson_str, escString]
          show ('"' :: s.data.foldr (fun c acc => escChar false c ++ acc) ['"'])
            ++ rest = _
          rw [List.cons_append, foldr_esc_append, List.singleton_append]
        rw [hdata, parseVal_strE]
        have hlen : s.data.length
            < (s.data.foldr (fun c acc => escChar false c ++ acc) ('"' :: rest)).length
              + 1 := by
          have h1 := foldr_esc_length s.data ('"' :: rest)
          simp only [List.length_cons] at h1 ⊢
          omega
        rw [parseStringBody_esc s.data _ rest hlen]
        simp only [Option.map_some', Option.some_inj]
      | seq xs =>
        cases xs with
        | nil =>
          have hdata : (pjson ind (.seq [])).data ++ rest = '[' :: (']' :: rest) := rfl
          rw [hdata, parseVal_seqE, skipWs_cons_not (by decide)]
          dsimp only
          rw [if_pos rfl]
        | cons x xs2 =>
          rw [wfV, wfL] at hwf
          simp only [Bool.and_eq_true] at hwf
          have hdata : (pjson ind (.seq (x :: xs2))).data ++ rest
              = '[' :: ('\n' :: ((pjsonItems (ind + 2) (x :: xs2)).data
                ++ '\n' :: ((spaces ind).data ++ (']' :: rest)))) := by
            rw [pjson_seq_cons]
            simp only [String.data_append, List.append_assoc]
            rfl
          rw [hdata, parseVal_seqE, skipWs_cons_ws (by decide)]
          obtain ⟨tl, htl⟩ := itemsHead (ind + 2) hwf.1 xs2
            ('\n' :: ((spaces ind).data ++ (']' :: rest)))
          obtain ⟨c, cs, hd, hset⟩ := pjson_head (ind + 2) hwf.1
          rw [htl, hd, List.cons_append]
          dsimp only
          rw [if_neg (headSet_facts hset).2.1]
          rw [← List.cons_append, ← hd, ← htl]
          rw [ihE (x :: xs2) (ind + 2) ind rest (by simp) (by
            rw [wfL]
            simp only [Bool.and_eq_true]
            exact hwf) (by
            simp only [vsize] at hfl
            omega)]
          rfl
      | map m =>
        cases m with
        | nil =>
          have hdata : (pjson ind (.map [])).data ++ rest
              = Char.ofNat 123 :: (Char.ofNat 125 :: rest) := rfl
          rw [hdata, parseVal_mapE, skipWs_cons_not (by decide)]
          dsimp only
          rw [if_pos rfl]
        | cons kv kvs =>
          obtain ⟨k, w⟩ := kv
          rw [wfV, wfM] at hwf
          simp only [Bool.and_eq_true] at hwf
          have hdata : (pjson ind (.map ((k, w) :: kvs))).data ++ rest
              = Char.ofNat 123 :: ('\n' :: ((pjsonEntries (ind + 2) ((k, w) :: kvs)).data
                ++ '\n' :: ((spaces ind).data ++ (Char.ofNat 125 :: rest)))) := by
            rw [pjson_map_cons]
            simp only [String.data_append, List.append_assoc]
            rfl
          rw [hdata, parseVal_mapE, skipWs_cons_ws (by decide)]
          obtain ⟨tl, htl⟩ := entriesHead (ind + 2) k w kvs
            ('\n' :: ((spaces ind).data ++ (Char.ofNat 125 :: rest)))
          rw [htl]
          dsimp only
          rw [if_neg (by decide)]
          rw [← htl]
          rw [ihM ((k, w) :: kvs) (ind + 2) ind rest (by simp) (by
            rw [wfM]
            simp only [Bool.and_eq_true]
            exact hwf) (by
            simp only [vsize] at hfl
            omega)]
          rfl
    · -- parseElems on pjsonItems output
      intro xs ind ind0 rest hne hwfl hfl
      cases xs with
      | nil => exact absurd rfl hne
      | cons x xs2 =>
        rw [wfL] at hwfl
        simp only [Bool.and_eq_true] at hwfl
        cases xs2 with
        | nil =>
          have hdec : skipWs ((pjsonItems ind [x]).data
              ++ '\n' :: ((spaces ind0).data ++ (']' :: rest)))
              = (pjson ind x).data ++ ('\n' :: ((spaces ind0).data ++ (']' :: rest))) := by
            rw [pjsonItems_one, String.data_append, List.append_assoc, skipWs_spaces]
            exact skipWs_pjson ind hwfl.1 _
          rw [hdec, parseElems_succ]
          rw [ihV x ind ('\n' :: ((spaces ind0).data ++ (']' :: rest))) hwfl.1 rfl (by
            simp only [vsizeL] at hfl
            omega)]
          rw [Option.some_bind]
          dsimp only
          rw [skipWs_cons_ws (by decide), skipWs_spaces, skipWs_cons_not (by decide)]
          dsimp only
          rw [if_pos rfl]
        | cons y ys =>
          have hdec : skipWs ((pjsonItems ind (x :: y :: ys)).data
              ++ '\n' :: ((spaces ind0).data ++ (']' :: rest)))
              = (pjson ind x).data ++ ((",\n").data ++ ((pjsonItems ind (y :: ys)).data
                ++ '\n' :: ((spaces ind0).data ++ (']' :: rest)))) := by
            rw [pjsonItems_cons2]
            simp only [String.data_append, List.append_assoc]
            rw [skipWs_spaces]
            exact skipWs_pjson ind hwfl.1 _
          rw [hdec, parseElems_succ]
          rw [ihV x ind ((",\n").data ++ ((pjsonItems ind (y :: ys)).data
            ++ '\n' :: ((spaces ind0).data ++ (']' :: rest)))) hwfl.1 rfl (by
            simp only [vsizeL] at hfl
            have := vsize_pos y
            omega)]
          rw [Option.some_bind]
          dsimp only
          rw [show ((",\n").data ++ ((pjsonItems ind (y :: ys)).data
            ++ '\n' :: ((spaces ind0).data ++ (']' :: rest))))
            = ',' :: ('\n' :: ((pjsonItems ind (y :: ys)).data
              ++ '\n' :: ((spaces ind0).data ++ (']' :: rest)))) from rfl,
            skipWs_cons_not (by decide)]
          dsimp only
          rw [if_neg (by decide), if_pos rfl, skipWs_cons_ws (by decide)]
          rw [ihE (y :: ys) ind ind0 rest (by simp) hwfl.2 (by
            simp only [vsizeL] at hfl ⊢
            have := vsize_pos x
            omega)]
          rfl
    · -- parseMembers on pjsonEntries output
      intro m ind ind0 rest hne hwfm hfl
      cases m with
      | nil => exact absurd rfl hne
      | cons kv m2 =>
        obtain ⟨k, w⟩ := kv
        rw [wfM] at hwfm
        simp only [Bool.and_eq_true] at hwfm
        cases m2 with
        | nil =>
          have hdec : skipWs ((pjsonEntries ind [(k, w)]).data
              ++ '\n' :: ((spaces ind0).data ++ (Char.ofNat 125 :: rest)))
              = '"' :: (k.data.foldr (fun c acc => escChar false c ++ acc)
                ('"' :: ((": ").data ++ ((pjson ind w).data
                  ++ '\n' :: ((spaces ind0).data ++ (Char.ofNat 125 :: rest)))))) := by
            rw [pjsonEntries_one]
            simp only [String.data_append, List.append_assoc]
            rw [skipWs_spaces, escString]
            show skipWs (('"' :: k.data.foldr (fun c acc => escChar false c ++ acc) ['"'])
              ++ ((": ").data ++ ((pjson ind w).data
                ++ '\n' :: ((spaces ind0).data ++ (Char.ofNat 125 :: rest))))) = _
            rw [List.cons_append, skipWs_cons_not (by decide), foldr_esc_append,
              List.singleton_append]
          rw [hdec, parseMembers_strE]
          rw [parseStringBody_esc k.data _ _ ?hklen]
          case hklen =>
            have h1 := foldr_esc_length k.data ('"' :: ((": ").data ++ ((pjson ind w).data
              ++ '\n' :: ((spaces ind0).data ++ (Char.ofNat 125 :: rest)))))
            simp only [List.length_cons] at h1 ⊢
            omega
          rw [Option.some_bind]
          dsimp only
          rw [show ((": ").data ++ ((pjson ind w).data
            ++ '\n' :: ((spaces ind0).data ++ (Char.ofNat 125 :: rest))))
            = ':' :: (' ' :: ((pjson ind w).data
              ++ '\n' :: ((spaces ind0).data ++ (Char.ofNat 125 :: rest)))) from rfl,
            skipWs_cons_not (by decide)]
          dsimp only
          rw [if_pos rfl, skipWs_cons_ws (by decide), skipWs_pjson ind hwfm.1]
          rw [ihV w ind ('\n' :: ((spaces ind0).data ++ (Char.ofNat 125 :: rest)))
            hwfm.1 rfl (by
            simp only [vsizeM] at hfl
            omega)]
          rw [Option.some_bind]
          dsimp only
          rw [skipWs_cons_ws (by decide), skipWs_spaces, skipWs_cons_not (by decide)]
          dsimp only
          rw [if_pos rfl, strMk_data]
        | cons e es =>
          obtain ⟨k2, w2⟩ := e
          have hdec : skipWs ((pjsonEntries ind ((k, w) :: (k2, w2) :: es)).data
              ++ '\n' :: ((spaces ind0).data ++ (Char.ofNat 125 :: rest)))
              = '"' :: (k.data.foldr (fun c acc => escChar false c ++ acc)
                ('"' :: ((": ").data ++ ((pjson ind w).data ++ ((",\n").data
                  ++ ((pjsonEntries ind ((k2, w2) :: es)).data
                    ++ '\n' :: ((spaces ind0).data
                      ++ (Char.ofNat 125 :: rest)))))))) := by
            rw [pjsonEntries_cons2]
            simp only [String.data_append, List.append_assoc]
            rw [skipWs_spaces, escString]
            show skipWs (('"' :: k.data.foldr (fun c acc => escChar false c ++ acc) ['"'])
              ++ ((": ").data ++ ((pjson ind w).data ++ ((",\n").data
                ++ ((pjsonEntries ind ((k2, w2) :: es)).data
                  ++ '\n' :: ((spaces ind0).data ++ (Char.ofNat 125 :: rest))))))) = _
            rw [List.cons_append, skipWs_cons_not (by decide), foldr_esc_append,
              List.singleton_append]
          rw [hdec, parseMembers_strE]
          rw [parseStringBody_esc k.data _ _ ?hklen2]
          case hklen2 =>
            have h1 := foldr_esc_length k.data ('"' :: ((": ").data
              ++ ((pjson ind w).data ++ ((",\n").data
                ++ ((pjsonEntries ind ((k2, w2) :: es)).data
                  ++ '\n' :: ((spaces ind0).data ++ (Char.ofNat 125 :: rest)))))))
            simp only [List.length_cons] at h1 ⊢
            omega
          rw [Option.some_bind]
          dsimp only
          rw [show ((": ").data ++ ((pjson ind w).data ++ ((",\n").data
            ++ ((pjsonEntries ind ((k2, w2) :: es)).data
              ++ '\n' :: ((spaces ind0).data ++ (Char.ofNat 125 :: rest))))))
            = ':' :: (' ' :: ((pjson ind w).data ++ ((",\n").data
              ++ ((pjsonEntries ind ((k2, w2) :: es)).data
                ++ '\n' :: ((spaces ind0).data ++ (Char.ofNat 125 :: rest)))))) from rfl,
            skipWs_cons_not (by decide)]
          dsimp only
          rw [if_pos rfl, skipWs_cons_ws (by decide), skipWs_pjson ind hwfm.1]
          rw [ihV w ind ((",\n").data ++ ((pjsonEntries ind ((k2, w2) :: es)).data
            ++ '\n' :: ((spaces ind0).data ++ (Char.ofNat 125 :: rest))))
            hwfm.1 rfl (by
            simp only [vsizeM] at hfl
            have := vsize_pos w2
            omega)]
          rw [Option.some_bind]
          dsimp only
          rw [show ((",\n").data ++ ((pjsonEntries ind ((k2, w2) :: es)).data
            ++ '\n' :: ((spaces ind0).data ++ (Char.ofNat 125 :: rest))))
            = ',' :: ('\n' :: ((pjsonEntries ind ((k2, w2) :: es)).data
              ++ '\n' :: ((spaces ind0).data ++ (Char.ofNat 125 :: rest)))) from rfl,
            skipWs_cons_not (by decide)]
          dsimp only
          rw [if_neg (by decide), if_pos rfl]
          rw [skipWs_cons_ws (by decide)]
          rw [ihM ((k2, w2) :: es) ind ind0 rest (by simp) hwfm.2 (by
            simp only [vsizeM] at hfl ⊢
            have := vsize_pos w
            omega)]
          simp only [Option.map_some', Option.some_inj]

theorem vsize_le_pjson : ∀ (v : Value) (ind : ℕ),
    vsize v ≤ (pjson ind v).data.length + 1 := by
  have main := valInd
    (fun v => ∀ ind, vsize v ≤ (pjson ind v).data.length + 1)
    (fun xs => ∀ ind, vsizeL xs ≤ (pjsonItems ind xs).data.length + 1)
    (fun m => ∀ ind, vsizeM m ≤ (pjsonEntries ind m).data.length + 1)
    (fun ind => by rw [vsize]; omega)
    (fun b ind => by rw [vsize]; omega)
    (fun f q ind => by rw [vsize]; omega)
    (fun s ind => by rw [vsize]; omega)
    (fun xs hQ ind => by
      cases xs with
      | nil => rw [vsize, vsizeL]; omega
      | cons x xs2 =>
        rw [vsize, pjson_seq_cons]
        have hq := hQ (ind + 2)
        simp only [String.data_append, List.length_append, List.length_cons, List.length_nil]
        have h1 : ("[\n").data.length = 2 := rfl
        have h2 : ("\n").data.length = 1 := rfl
        have h3 : ("]").data.length = 1 := rfl
        omega)
    (fun m hR ind => by
      cases m with
      | nil => rw [vsize, vsizeM]; omega
      | cons kv kvs =>
        rw [vsize, pjson_map_cons]
        have hr := hR (ind + 2)
        simp only [String.data_append, List.length_append, List.length_cons, List.length_nil]
        have h1 : ("\x7b\n").data.length = 2 := rfl
        have h2 : ("\n").data.length = 1 := rfl
        have h3 : ("\x7d").data.length = 1 := rfl
        omega)
    (fun ind => by rw [vsizeL]; omega)
    (fun x xs hP hQ ind => by
      cases xs with
      | nil =>
        rw [vsizeL, vsizeL, pjsonItems_one]
        simp only [String.data_append, List.length_append, List.length_cons, List.length_nil]
        have hp := hP ind
        omega
      | cons y ys =>
        rw [vsizeL, pjsonItems_cons2]
        simp only [String.data_append, List.length_append, List.length_cons, List.length_nil]
        have hp := hP ind
        have hq := hQ ind
        have h1 : (",\n").data.length = 2 := rfl
        omega)
    (fun ind => by rw [vsizeM]; omega)
    (fun k w m hP hR ind => by
      cases m with
      | nil =>
        rw [vsizeM, vsizeM, pjsonEntries_one]
        simp only [String.data_append, List.length_append, List.length_cons, List.length_nil]
        have hp := hP ind
        omega
      | cons e es =>
        obtain ⟨k2, w2⟩ := e
        rw [vsizeM, pjsonEntries_cons2]
        simp only [String.data_append, List.length_append, List.length_cons, List.length_nil]
        have hp := hP ind
        have hr := hR ind
        have h1 : (",\n").data.length = 2 := rfl
        omega)
  exact main

theorem parseDoc_pretty {v : Value} (hwf : wfV v = true) :
    parseDoc (pretty_json v) = Except.ok v := by
  have h0 : pretty_json v = pjson 0 v := rfl
  rw [parseDoc, h0]
  obtain ⟨c, cs, hd, hset⟩ := pjson_head 0 hwf
  rw [show skipWs (pjson 0 v).data = (pjson 0 v).data from by
    rw [hd]
    exact skipWs_cons_not (headSet_facts hset).1 cs]
  have happ : (pjson 0 v).data = (pjson 0 v).data ++ [] := (List.append_nil _).symm
  nth_rewrite 2 [happ]
  rw [(roundtrip_fuel (2 * ((pjson 0 v).data.length + 1))).1 v 0 [] hwf rfl (by
    have := vsize_le_pjson v 0
    omega)]
  dsimp only
  rw [if_pos (show (skipWs []).isEmpty = true from rfl)]

/-- C7: for every value holding only JSON-representable data (numbers as the
decoders produce them — exact ints or decimal-exact floats — and dicts with
duplicate-free keys), parsing the text produced by rendering the value with
`pretty_json` (JsonPretty mode) succeeds and yields a value structurally equal
to the original: `parse(render(v, JsonPretty))` is `==`-equal to `v`. -/
theorem pretty_json_roundtrip (v : Value) (hwf : wfV v = true)
    (hnd : nodupV v = true) :
    ∃ w, parseDoc (pretty_json v) = Except.ok w ∧ deep_equal w v = true :=
  ⟨v, parseDoc_pretty hwf, show pythonEq v v = true from pythonEq_refl hnd⟩

/-- Witness for the round-trip claim at a concrete document. -/
theorem pretty_json_roundtrip_witness :
    wfV (Value.map [("a", .seq [.num false 1, .str "x"]), ("b", .null),
      ("c", .bool true)]) = true
    ∧ nodupV (Value.map [("a", .seq [.num false 1, .str "x"]), ("b", .null),
      ("c", .bool true)]) = true
    ∧ ∃ w, parseDoc (pretty_json (Value.map [("a", .seq [.num false 1, .str "x"]),
        ("b", .null), ("c", .bool true)])) = Except.ok w
      ∧ deep_equal w (Value.map [("a", .seq [.num false 1, .str "x"]),
        ("b", .null), ("c", .bool true)]) = true :=
  ⟨by decide, by decide, pretty_json_roundtrip _ (by decide) (by decide)⟩
